import Mathlib

/-!
Shallow embedding of the DGL read-only graph core: the bipartite relation
graph with lazy multi-format adjacency (src/graph/bipartite.cc), the
heterograph subgraph operations (graph/heterograph.cc), and the two
samplers producing NodeFlows (src/graph/sampler.cc).

Conventions of the embedding:
* vertex ids and edge ids are `Nat` (the C++ `dgl_id_t` is `uint64_t`);
  sampled edge lists in the neighbor sampler are `Int` because the code
  pushes `-1` (which as `uint64_t` is `2^64 - 1`) as the sentinel edge id
  of a synthesized self-loop, and the spec speaks of `-1`;
* `IdArray`s are Lean lists; the array primitives the core consumes
  (`aten::*`) are not part of the three source files, so they are modelled
  from the spec (section 4.1), each marked `Modelled from the spec:`;
* random draws are abstracted as oracle functions constrained exactly by
  the postconditions the code itself asserts (`CHECK_EQ`/`CHECK_GT` in
  `GetUniformSample`, distinctness of heap draws, hash-set iteration being
  some permutation of the underlying set); theorems quantify over all
  oracles satisfying those constraints, hence over all executions.
-/

namespace DglSpec

/-- First-seen-order deduplication of a list, keeping the first occurrence
of each element.  This is the iteration/insert order of the C++ hash-set
based dedup loops and the union order computed by `aten::Relabel_`. -/
def firstSeen : List Nat → List Nat
  | [] => []
  | x :: xs => x :: (firstSeen xs).filter (fun y => decide (y ≠ x))

/-- Exclusive prefix sums with the total appended: `offsetsOf [a,b,c] =
[0, a, a+b, a+b+c]`.  This is the shape of every `indptr` / offsets array
built by the code. -/
def offsetsOf : List Nat → List Nat
  | [] => [0]
  | n :: ns => 0 :: (offsetsOf ns).map (fun m => n + m)

/-! ## Neighbor-list sampling primitives (sampler.cc lines 106-216)

`GetUniformSample` copies the whole list when `ver_len <= max_num_neighbor`;
otherwise both of its random branches (direct `RandomSample` + sort, or
complement sampling through `NegateArray`) produce a strictly increasing
list of exactly `max_num_neighbor` distinct indices below `ver_len` — the
code asserts exactly this at lines 170-173 (`CHECK_EQ` on the size and
`CHECK_GT` on consecutive elements).  The random choice is abstracted as a
`pick` oracle constrained by `PickOK` below. -/

/-- Embedding of `GetUniformSample` (sampler.cc:144-178).  `eids` is the
`edge_id_list` slice, `vids` the `vid_list` slice, `k` the
`max_num_neighbor` bound.  `pick len k` stands for the sorted index set
produced by either random branch. -/
def getUniformSample (pick : Nat → Nat → List Nat) (eids : List Int)
    (vids : List Nat) (k : Nat) : List Nat × List Int :=
  if vids.length ≤ k then (vids, eids)
  else
    let idxs := pick vids.length k
    (idxs.map (fun i => vids.getD i 0), idxs.map (fun i => eids.getD i 0))

/-- Constraint on the index oracle of `getUniformSample`: whenever the
sampled case is reached (`k < len`) the oracle yields exactly `k` strictly
increasing indices below `len`.  These are the postconditions the C++ code
checks at runtime for both of its branches. -/
def PickOK (pick : Nat → Nat → List Nat) : Prop :=
  ∀ len k, k < len →
    (pick len k).Sorted (· < ·) ∧ (pick len k).length = k ∧
      ∀ i ∈ pick len k, i < len

/-- A concrete oracle satisfying `PickOK`: always keep the last `k`
positions.  Used to instantiate witnesses and counterexamples. -/
def pickLast (len k : Nat) : List Nat :=
  (List.range len).drop (len - k)

/-- Embedding of `GetNonUniformSample` (sampler.cc:185-216).  The
probability vector only influences which indices the `ArrayHeap` draws;
the drawn index list (distinct, in range, arbitrary order) is the `draw`
argument.  After building the paired outputs the code sorts the vertex
list and the edge list ascending, independently of each other. -/
def getNonUniformSample (draw : List Nat) (eids : List Int)
    (vids : List Nat) (k : Nat) : List Nat × List Int :=
  if vids.length ≤ k then (vids, eids)
  else
    ((draw.map (fun i => vids.getD i 0)).insertionSort (· ≤ ·),
     (draw.map (fun i => eids.getD i 0)).insertionSort (· ≤ ·))

/-- Embedding of the `add_self_loop` block of `SampleSubgraph`
(sampler.cc:442-456): if the expanded destination `dstId` is not among the
sampled vertices `sv`, append it, and append the edge id found by scanning
the original adjacency slice `vidSlice` for a self-edge — `-1` when there
is none. -/
def addSelfLoop (dstId : Nat) (eidSlice : List Int) (vidSlice : List Nat)
    (sv : List Nat) (se : List Int) : List Nat × List Int :=
  if dstId ∈ sv then (sv, se)
  else
    match vidSlice.findIdx? (fun v => v == dstId) with
    | some i => (sv ++ [dstId], se ++ [eidSlice.getD i 0])
    | none => (sv ++ [dstId], se ++ [(-1 : Int)])

/-- One destination's sampling step in the uniform path of
`SampleSubgraph` (sampler.cc:423-456): uniform neighbor-list sampling
followed by the optional self-loop insertion. -/
def sampleOneDst (pick : Nat → Nat → List Nat) (slp : Bool)
    (eidSlice : List Int) (vidSlice : List Nat) (k dstId : Nat) :
    List Nat × List Int :=
  let p := getUniformSample pick eidSlice vidSlice k
  if slp then addSelfLoop dstId eidSlice vidSlice p.1 p.2 else p

/-! ## The `_CAPI_DGLNeighborSampling` argument checks (sampler.cc:782-829) -/

/-- Shape/type information of the probability `NDArray` argument as seen
by the C API boundary. -/
structure ProbArg where
  isFloat : Bool
  ndim : Nat
  len : Nat
  contiguous : Bool

/-- Embedding of the argument validation and dispatch of
`_CAPI_DGLNeighborSampling` (sampler.cc:782-829), parameterized by the
sampling implementation `impl` (the call to `NeighborSamplingImpl`): the
probability pointer handed to `impl` is `none` exactly when the length-0
escape hatch is taken, and every failed `CHECK` aborts the call with an
error instead of returning node flows. -/
def neighborSamplingCAPI {α : Type} (impl : Option ProbArg → α)
    (numEdges : Nat) (p : ProbArg) : Except String α :=
  if ¬ p.isFloat then .error "transition probability must be float"
  else if p.ndim ≠ 1 then
    .error "transition probability must be a 1-dimensional vector"
  else if p.len = 0 then .ok (impl none)
  else if p.len ≠ numEdges then
    .error "transition probability must have same number of elements as edges"
  else if ¬ p.contiguous then
    .error "transition probability must be contiguous tensor"
  else .ok (impl (some p))

/-- Embedding of `_CAPI_DGLUniformSampling` (sampler.cc:759-780): no
probability argument exists, `NeighborSamplingImpl` is invoked with a null
probability pointer. -/
def uniformSamplingCAPI {α : Type} (impl : Option ProbArg → α) :
    Except String α :=
  .ok (impl none)

/-! ## Sparse matrices and the array primitives they consume

The `aten::` kernels live outside the three source files (the spec treats
them as the consumed interface of section 4.1), so they are modelled from
the spec with standard sparse-matrix semantics. -/

/-- COO adjacency: parallel `row`/`col` arrays, edge id = position
(spec section 3). -/
structure COOm where
  numRows : Nat
  numCols : Nat
  row : List Nat
  col : List Nat
deriving DecidableEq, Repr

/-- CSR adjacency: `indptr`/`indices`/`data`, where `data k` is the edge
id of the `k`-th stored entry (spec section 3). -/
structure CSRm where
  numRows : Nat
  numCols : Nat
  indptr : List Nat
  indices : List Nat
  data : List Nat
deriving DecidableEq, Repr

/-- Modelled from the spec: `hstack(a,b)` concatenates two id arrays. -/
def hstack (a b : List Nat) : List Nat := a ++ b

/-- Modelled from the spec: `index_select(arr, idx)` gathers. -/
def indexSelect (arr : List Nat) (idxs : List Nat) : List Nat :=
  idxs.map (fun i => arr.getD i 0)

/-- The edge triple list `(src, dst, eid)` denoted by a COO matrix. -/
def cooTriples (c : COOm) : List (Nat × Nat × Nat) :=
  (List.range c.row.length).map
    (fun i => (c.row.getD i 0, c.col.getD i 0, i))

/-- The stored entries of one CSR row: the column slice and the data slice
`[indptr r, indptr (r+1))`. -/
def csrRowSlice (c : CSRm) (r : Nat) : List Nat × List Nat :=
  let lo := c.indptr.getD r 0
  let hi := c.indptr.getD (r + 1) 0
  ((c.indices.drop lo).take (hi - lo), (c.data.drop lo).take (hi - lo))

/-- The edge triple list `(row, col, eid)` stored by a CSR matrix, row by
row. -/
def csrTriples (c : CSRm) : List (Nat × Nat × Nat) :=
  ((List.range c.numRows).map (fun r =>
    ((csrRowSlice c r).1.zip (csrRowSlice c r).2).map
      (fun p => (r, p.1, p.2)))).flatten

/-- Stable grouping of a list by a `Nat` key below `nr`, in key order. -/
def bucketBy {α : Type} (key : α → Nat) (nr : Nat) (l : List α) :
    List (List α) :=
  (List.range nr).map (fun r => l.filter (fun x => key x == r))

/-- Build a CSR from a triple list by stable counting sort on the row
component — the common shape of the `aten` COO→CSR and transpose kernels
(modelled from the spec). -/
def csrFromPairs (nr nc : Nat) (prs : List (Nat × Nat × Nat)) : CSRm :=
  let grouped := bucketBy (fun t => t.1) nr prs
  { numRows := nr
    numCols := nc
    indptr := offsetsOf (grouped.map List.length)
    indices := (grouped.map (fun g => g.map (fun t => t.2.1))).flatten
    data := (grouped.map (fun g => g.map (fun t => t.2.2))).flatten }

/-- Modelled from the spec: `coo_to_csr` with edge id = original COO
position, stable within a row. -/
def cooToCSR (c : COOm) : CSRm :=
  csrFromPairs c.numRows c.numCols (cooTriples c)

/-- Swap the endpoint components of an edge triple, keeping the edge
id — the effect of transposition on one edge. -/
def swap3 (t : Nat × Nat × Nat) : Nat × Nat × Nat := (t.2.1, t.1, t.2.2)

/-- Modelled from the spec: `csr_transpose`. -/
def csrTranspose (c : CSRm) : CSRm :=
  csrFromPairs c.numCols c.numRows ((csrTriples c).map swap3)

/-- Modelled from the spec: `csr_to_coo(csr, with_data_order = true)` —
the COO whose position `e` holds the endpoints of the edge with id `e`. -/
def csrToCOOEidOrder (c : CSRm) : COOm :=
  let trip := (List.range c.data.length).map (fun e =>
    ((csrTriples c).find? (fun t => t.2.2 == e)).getD (0, 0, 0))
  { numRows := c.numRows
    numCols := c.numCols
    row := trip.map (fun t => t.1)
    col := trip.map (fun t => t.2.1) }

/-- Modelled from the spec: `csr_is_nonzero(csr, r, c)` searches row `r`
for column `c` (used by `CSR::HasEdgeBetween`, bipartite.cc:382-386). -/
def csrIsNonZero (c : CSRm) (r v : Nat) : Bool :=
  (csrRowSlice c r).1.contains v

/-! ## The bipartite graph with lazy format materialization
(bipartite.cc:557-824) -/

/-- A bipartite relation graph: any subset of in-CSR / out-CSR / COO views
of the same edge set; the constructor checks at least one is present. -/
structure Bip where
  inCsr : Option CSRm
  outCsr : Option CSRm
  coo : Option COOm
deriving DecidableEq, Repr

/-- `Bipartite::CreateFromCOO` (bipartite.cc:750-755). -/
def createFromCOO (ns nd : Nat) (row col : List Nat) : Bip :=
  { inCsr := none, outCsr := none
    coo := some { numRows := ns, numCols := nd, row := row, col := col } }

/-- `Bipartite::CreateFromCSR` (bipartite.cc:757-762). -/
def createFromCSR (ns nd : Nat) (indptr indices eids : List Nat) : Bip :=
  { inCsr := none
    outCsr := some { numRows := ns, numCols := nd, indptr := indptr,
                     indices := indices, data := eids }
    coo := none }

/-- Lazy materialization `Bipartite::GetInCSR` (bipartite.cc:769-783):
if absent, transpose the out-CSR, else build from the swapped COO.
The impossible all-absent case (rejected by the constructor's `CHECK`)
yields an empty placeholder. -/
def getInCSR (b : Bip) : CSRm × Bip :=
  match b.inCsr with
  | some c => (c, b)
  | none =>
    match b.outCsr with
    | some oc =>
      let c := csrTranspose oc
      (c, { b with inCsr := some c })
    | none =>
      match b.coo with
      | some co =>
        let c := cooToCSR { numRows := co.numCols, numCols := co.numRows,
                            row := co.col, col := co.row }
        (c, { b with inCsr := some c })
      | none => ({ numRows := 0, numCols := 0, indptr := [0],
                   indices := [], data := [] }, b)

/-- Lazy materialization `Bipartite::GetOutCSR` (bipartite.cc:786-798). -/
def getOutCSR (b : Bip) : CSRm × Bip :=
  match b.outCsr with
  | some c => (c, b)
  | none =>
    match b.inCsr with
    | some ic =>
      let c := csrTranspose ic
      (c, { b with outCsr := some c })
    | none =>
      match b.coo with
      | some co =>
        let c := cooToCSR co
        (c, { b with outCsr := some c })
      | none => ({ numRows := 0, numCols := 0, indptr := [0],
                   indices := [], data := [] }, b)

/-- Lazy materialization `Bipartite::GetCOO` (bipartite.cc:801-814): from
the in-CSR the eid-ordered COO is swapped back; otherwise taken from the
out-CSR directly. -/
def getCOO (b : Bip) : COOm × Bip :=
  match b.coo with
  | some c => (c, b)
  | none =>
    match b.inCsr with
    | some ic =>
      let na := csrToCOOEidOrder ic
      let c : COOm := { numRows := na.numCols, numCols := na.numRows,
                        row := na.col, col := na.row }
      (c, { b with coo := some c })
    | none =>
      match b.outCsr with
      | some oc =>
        let c := csrToCOOEidOrder oc
        (c, { b with coo := some c })
      | none => ({ numRows := 0, numCols := 0, row := [], col := [] }, b)

/-- Which CSR view answered an edge-existence query. -/
inductive ViewTag
  | inV
  | outV
deriving DecidableEq, Repr

/-- `Bipartite::HasEdgeBetween` (bipartite.cc:586-592), instrumented with
the view that served the query: the in-CSR is consulted (with swapped
arguments) whenever it is present, otherwise the out-CSR is materialized
and consulted. -/
def hasEdgeBetween (b : Bip) (src dst : Nat) : Bool × Bip × ViewTag :=
  match b.inCsr with
  | some ic => (csrIsNonZero ic dst src, b, ViewTag.inV)
  | none =>
    let p := getOutCSR b
    (csrIsNonZero p.1 src dst, p.2, ViewTag.outV)

/-- `Bipartite::HasEdgesBetween` (bipartite.cc:594-601): the vectorized
form, with the same in-CSR-first dispatch; the vector `aten` kernel is
modelled from the spec as the pointwise scalar query. -/
def hasEdgesBetween (b : Bip) (srcs dsts : List Nat) :
    List Bool × Bip × ViewTag :=
  match b.inCsr with
  | some ic =>
    ((srcs.zip dsts).map (fun p => csrIsNonZero ic p.2 p.1), b, ViewTag.inV)
  | none =>
    let p := getOutCSR b
    ((srcs.zip dsts).map (fun q => csrIsNonZero p.1 q.1 q.2), p.2,
     ViewTag.outV)

/-- `Bipartite::GetAdj` (bipartite.cc:708-726) together with
`CSR::GetAdj` (bipartite.cc:513-517) and `COO::GetAdj`
(bipartite.cc:232-240).  For `fmt = "csr"` the transpose flag is flipped:
`transpose = false` answers from the in-CSR, `true` from the out-CSR.
For `fmt = "coo"` the flag handed to the COO view is negated, so
`transpose = false` yields `hstack(col, row)`.  Unsupported formats are
fatal (`none`). -/
def getAdj (b : Bip) (transpose : Bool) (fmt : String) :
    Option (List (List Nat)) × Bip :=
  if fmt = "csr" then
    if transpose then
      let p := getOutCSR b
      (some [p.1.indptr, p.1.indices, p.1.data], p.2)
    else
      let p := getInCSR b
      (some [p.1.indptr, p.1.indices, p.1.data], p.2)
  else if fmt = "coo" then
    let p := getCOO b
    (some [if !transpose then hstack p.1.col p.1.row
           else hstack p.1.row p.1.col], p.2)
  else (none, b)

/-! ## The heterograph (heterograph.cc)

A heterograph is a meta-graph over vertex types plus one bipartite
relation per meta-graph edge.  For the subgraph algorithm the relation
graphs enter through their COO views (`FindEdges` forces the COO view,
bipartite.cc:632-634 and 157-162), so relations are carried as `COOm`
here; for the constructor check only the two vertex counts of each
relation matter. -/

/-- The meta-graph: `numVerts` vertex types and one `(srcType, dstType)`
pair per edge type, edge types numbered by position. -/
structure MetaG where
  numVerts : Nat
  edges : List (Nat × Nat)
deriving DecidableEq, Repr

/-- Modelled from the spec: `relabel_inplace` on a list of id arrays
computes the union in first-seen order (the returned mapping) and rewrites
each input id to its dense index in that union.  `relabelMapOf` is the
mapping, `relabelApply` the densification of one array. -/
def relabelMapOf (arrays : List (List Nat)) : List Nat :=
  firstSeen arrays.flatten

/-- Densify one id array through a relabel mapping: each id is replaced by
its index in the mapping. -/
def relabelApply (mapping : List Nat) (arr : List Nat) : List Nat :=
  arr.map (fun x => mapping.findIdx (fun y => y == x))

/-- The per-relation gathered endpoints of the selected edges: step (1) of
`EdgeSubgraphNoPreserveNodes` (heterograph.cc:72-83) via
`COO::FindEdges` (bipartite.cc:157-162). -/
def selectedSrc (rel : COOm) (eids : List Nat) : List Nat :=
  indexSelect rel.row eids

/-- Dst counterpart of `selectedSrc`. -/
def selectedDst (rel : COOm) (eids : List Nat) : List Nat :=
  indexSelect rel.col eids

/-- Step (2) of `EdgeSubgraphNoPreserveNodes`: the bucket of incident id
arrays for vertex type `v`, pushed per edge type in order — the src array
first, then the dst array, exactly as the C++ loop pushes
`earray.src` to `vtype2incnodes[src_vtype]` and `earray.dst` to
`vtype2incnodes[dst_vtype]`. -/
def vtypeBucket (mg : MetaG) (rels : List COOm) (eids : List (List Nat))
    (v : Nat) : List (List Nat) :=
  ((List.range mg.edges.length).map (fun t =>
    let p := mg.edges.getD t (0, 0)
    let rel := rels.getD t { numRows := 0, numCols := 0, row := [], col := [] }
    let sel := eids.getD t []
    (if p.1 = v then [selectedSrc rel sel] else []) ++
      (if p.2 = v then [selectedDst rel sel] else []))).flatten

/-- Steps (3)-(4) of `EdgeSubgraphNoPreserveNodes` (heterograph.cc:40-102):
per vertex type, relabel the bucket; the mapping is the induced vertex
array; each relation is rebuilt from its densified endpoint arrays with
the shared per-type vertex counts.  Returns
`(induced_vertices, new relation COOs)`. -/
def edgeSubgraphNoPreserveNodes (mg : MetaG) (rels : List COOm)
    (eids : List (List Nat)) : List (List Nat) × List COOm :=
  let induced := (List.range mg.numVerts).map
    (fun v => relabelMapOf (vtypeBucket mg rels eids v))
  let newRels := (List.range mg.edges.length).map (fun t =>
    let p := mg.edges.getD t (0, 0)
    let rel := rels.getD t { numRows := 0, numCols := 0, row := [], col := [] }
    let sel := eids.getD t []
    { numRows := (induced.getD p.1 []).length
      numCols := (induced.getD p.2 []).length
      row := relabelApply (induced.getD p.1 []) (selectedSrc rel sel)
      col := relabelApply (induced.getD p.2 []) (selectedDst rel sel) : COOm })
  (induced, newRels)

/-- The `HeteroGraph::HeteroGraph` constructor check
(heterograph.cc:106-129), with each relation reduced to its
`(num_src_vertices, num_dst_vertices)` pair.  For each vertex type the
constructor walks the *outgoing* meta-graph edges and requires all their
relations to report the same src-side count, starting from the sentinel
`-1`; a disagreement is a fatal `CHECK` (`none`).  Nothing inspects the
dst side.  On success it returns `num_verts_per_type_`. -/
def vertCountAt (mg : MetaG) (rels : List (Nat × Nat)) (v : Nat) :
    Option Int :=
  ((List.range mg.edges.length).filter
      (fun t => (mg.edges.getD t (0, 0)).1 == v)).foldl
    (fun acc t =>
      match acc with
      | none => none
      | some cur =>
        let nv : Int := ((rels.getD t (0, 0)).1 : Int)
        if cur < 0 then some nv
        else if cur = nv then some cur
        else none)
    (some (-1))

/-- The whole constructor: the meta-graph edge count must equal the number
of relations, the relation list must be non-empty, and every per-type
src-side agreement check must pass. -/
def heteroGraphCons (mg : MetaG) (rels : List (Nat × Nat)) :
    Option (List Int) :=
  if mg.edges.length ≠ rels.length then none
  else if rels.isEmpty then none
  else
    let counts := (List.range mg.numVerts).map (vertCountAt mg rels)
    if counts.all (fun c => c.isSome) then
      some (counts.map (fun c => c.getD 0))
    else none

/-! ## The neighbor sampler pipeline (sampler.cc:241-533)

`SampleSubgraph` walks `num_hops` layers starting from the deduplicated
seeds; each destination of the previous layer contributes one sampled
neighbor record; new layer vertices are deduplicated in first-seen order
(the `sub_ver_map` hash set).  The flat `sub_vers`/`neigh_pos` vectors
with their `layer_offsets` boundaries are carried here as one list per
layer; the flat form, its `pos`/`num_edges` bookkeeping and the final
offset arrays are recovered in `constructNodeFlow`.  The per-record
sampled contents are stored directly (the code stores `(dst, pos, count)`
and reads the slice `[pos, pos+count)` of the flat lists, which is exactly
what was appended for that destination). -/

/-- The source graph CSR view the samplers read (`GetInCSR`/`GetOutCSR`
result): `numV` vertices on both sides, edge ids as `Int` so the
self-loop sentinel `-1` can flow into sampled edge lists. -/
structure SrcCSR where
  numV : Nat
  indptr : List Nat
  indices : List Nat
  eids : List Int
deriving DecidableEq, Repr

/-- The neighbor slice of one destination: `indices`/`eids` restricted to
`[indptr d, indptr (d+1))` — the pointers `col_list + *(indptr + dst)`
etc. of sampler.cc:425-440. -/
def neighSlice (g : SrcCSR) (d : Nat) : List Nat × List Int :=
  let lo := g.indptr.getD d 0
  let hi := g.indptr.getD (d + 1) 0
  ((g.indices.drop lo).take (hi - lo), (g.eids.drop lo).take (hi - lo))

/-- A per-destination neighbor-list sampler: `(call counter, eid slice,
vid slice, bound) ↦ (sampled vertices, sampled edge ids)`.  Both
`getUniformSample` and `getNonUniformSample` fit, with the counter making
every call site an independent random draw. -/
def SamplerFun : Type := Nat → List Int → List Nat → Nat → List Nat × List Int

/-- What every execution of either sampling routine guarantees: the two
output lists have equal length and every sampled vertex comes from the
input vertex slice. -/
def SamplerOK (f : SamplerFun) : Prop :=
  ∀ step es vs k, vs.length = es.length →
    (f step es vs k).1.length = (f step es vs k).2.length ∧
      ∀ v ∈ (f step es vs k).1, v ∈ vs

/-- One destination of the sampling loop (sampler.cc:419-477): slice,
sample, optional self-loop. -/
def sampleNeighbors (f : SamplerFun) (g : SrcCSR) (slp : Bool)
    (k step dst : Nat) : List Nat × List Int :=
  let s := neighSlice g dst
  let p := f step s.2 s.1 k
  if slp then addSelfLoop dst s.2 s.1 p.1 p.2 else p

/-- One record of `neigh_pos` together with the slice of
`neighbor_list`/`edge_list` it points at: `(dst, sampled vertices,
sampled edge ids)`. -/
def RecT : Type := Nat × List Nat × List Int

/-- Process one layer: sample every destination of the previous layer in
order (each consuming one oracle step), and deduplicate the union of the
sampled vertices in first-seen order into the next layer. -/
def processLayer (f : SamplerFun) (g : SrcCSR) (slp : Bool)
    (k step0 : Nat) (prev : List Nat) : List RecT × List Nat :=
  let recs := prev.enum.map (fun p =>
    let q := sampleNeighbors f g slp k (step0 + p.1) p.2
    ((p.2, q.1, q.2) : RecT))
  (recs, firstSeen (recs.map (fun r => r.2.1)).flatten)

/-- The layer loop of `SampleSubgraph` (sampler.cc:412-481): `n` more
layers to build from the current layer `cur`; returns the per-layer
vertex lists (starting with `cur`) and the per-layer record lists. -/
def sampleLoop (f : SamplerFun) (g : SrcCSR) (slp : Bool) (k : Nat) :
    Nat → Nat → List Nat → List (List Nat) × List (List RecT)
  | 0, _, cur => ([cur], [])
  | n + 1, step0, cur =>
    let pr := processLayer f g slp k step0 cur
    let rest := sampleLoop f g slp k n (step0 + cur.length) pr.2
    (cur :: rest.1, pr.1 :: rest.2)

/-- `SampleSubgraph` up to the `ConstructNodeFlow` call: seeds are
deduplicated into layer 0, then `num_hops - 1` expansion rounds run
(`NeighborSample` passes the user hop count plus one as `num_hops`). -/
def sampleSubgraph (f : SamplerFun) (g : SrcCSR) (slp : Bool)
    (k numHops : Nat) (seeds : List Nat) :
    List (List Nat) × List (List RecT) :=
  sampleLoop f g slp k (numHops - 1) 0 (firstSeen seeds)

/-- A NodeFlow: the sampled layered graph (its fresh CSR) plus the four
id arrays (spec section 3). -/
structure NodeFlowM where
  nodeMapping : List Nat
  edgeMapping : List Int
  layerOffsets : List Nat
  flowOffsets : List Nat
  indptr : List Nat
  colIndices : List Nat
  eidsOut : List Nat
deriving DecidableEq, Repr

/-- Output layer order of `ConstructNodeFlow` (sampler.cc:276-297): the
walk goes from the deepest layer back to the seed layer, sorting each
layer by vertex id except the seed layer (layer 0), which keeps the
caller-given order.  Vertex ids within a layer are distinct, so the
unstable `std::sort` has a unique result, matched by `insertionSort`. -/
def outLayersOf (layers : List (List Nat)) : List (List Nat) :=
  match layers with
  | [] => []
  | l0 :: rest => (rest.map (fun l => l.insertionSort (· ≤ ·))).reverse ++ [l0]

/-- The flow-vertex id base of original layer `i`: deeper layers occupy
the lower dense ids. -/
def layerBase (layers : List (List Nat)) (i : Nat) : Nat :=
  ((layers.drop (i + 1)).map List.length).sum

/-- `layer_ver_maps[i]` of `ConstructNodeFlow`: the dense flow-vertex id
assigned to vertex `v` of original layer `i`. -/
def layerPos (layers : List (List Nat)) (i v : Nat) : Nat :=
  layerBase layers i +
    (if i = 0 then layers.getD 0 []
     else (layers.getD i []).insertionSort (· ≤ ·)).findIdx (fun y => y == v)

/-- Sort one layer's records by destination id (distinct within a layer,
so the comparison sort is deterministic). -/
def sortRecs (R : List RecT) : List RecT :=
  R.insertionSort (fun a b => a.1 ≤ b.1)

/-- The destination processing order of the second walk of
`ConstructNodeFlow` (sampler.cc:310-346): layers `num_hops - 2` down to
`0`, each sorted by destination id except layer 0; every record is tagged
with its original layer index. -/
def orderedRecsOf (recs : List (List RecT)) : List (Nat × RecT) :=
  match recs with
  | [] => []
  | r0 :: rest =>
    (((rest.enum.map (fun p => (p.1 + 1, sortRecs p.2))).reverse).map
      (fun p => p.2.map (fun r => (p.1, r)))).flatten ++
      r0.map (fun r => ((0 : Nat), r))

/-- The `flow_offsets` loop of `ConstructNodeFlow` (sampler.cc:352-359):
`flow_off[i+1] = flow_off[i] + indptr[layerOff[i+2]] -
indptr[layerOff[i+1]]`, run `num_hops - 1` times. -/
def flowOffsetsGo (indptr layerOff : List Nat) : Nat → List Nat
  | 0 => [0]
  | i + 1 =>
    let prev := flowOffsetsGo indptr layerOff i
    prev ++ [prev.getLastD 0 +
      (indptr.getD (layerOff.getD (i + 2) 0) 0 -
        indptr.getD (layerOff.getD (i + 1) 0) 0)]

/-- `ConstructNodeFlow` (sampler.cc:241-372) as a function of the
per-layer vertex lists and records.  The fresh CSR rows of the deepest
layer have no edges (`indptr` starts with that many zeros); each
processed destination appends its edge count; `edge_mapping` copies each
record's edge slice; `col` entries translate sampled neighbors through
the dense map of the adjacent deeper layer; the flow CSR's own edge ids
are `0..M-1`. -/
def constructNodeFlow (layers : List (List Nat)) (recs : List (List RecT)) :
    NodeFlowM :=
  let outLayers := outLayersOf layers
  let ordRecs := orderedRecsOf recs
  let counts := ordRecs.map (fun p => p.2.2.1.length)
  let deepSize := (outLayers.headD []).length
  let indptr := List.replicate (deepSize + 1) 0 ++ (offsetsOf counts).drop 1
  let layerOff := offsetsOf (outLayers.map List.length)
  { nodeMapping := outLayers.flatten
    edgeMapping := (ordRecs.map (fun p => p.2.2.2.take p.2.2.1.length)).flatten
    layerOffsets := layerOff
    flowOffsets := flowOffsetsGo indptr layerOff (layers.length - 1)
    indptr := indptr
    colIndices := (ordRecs.map (fun p =>
      p.2.2.1.map (fun v => layerPos layers (p.1 + 1) v))).flatten
    eidsOut := List.range counts.sum }

/-- The whole neighbor sampler: `SampleSubgraph` followed by
`ConstructNodeFlow` (sampler.cc:483-484). -/
def neighborSampleNF (f : SamplerFun) (g : SrcCSR) (slp : Bool)
    (k numHops : Nat) (seeds : List Nat) : NodeFlowM :=
  let p := sampleSubgraph f g slp k numHops seeds
  constructNodeFlow p.1 p.2

/-! ## The layer-wise sampler (sampler.cc:536-708)

`ConstructLayers` draws each layer from the union of the previous layer's
out-neighbors; the hash-set candidate ordering, the uniform draws, and
the occurrence-map iteration order are oracles. -/

/-- The concatenation of the previous layer's neighbor lists — the
candidate multiset before hash-set deduplication. -/
def candidatesOf (g : SrcCSR) (block : List Nat) : List Nat :=
  (block.map (fun v => (neighSlice g v).1)).flatten

/-- A hash-container iteration-order oracle: at every step it must yield
some permutation of the deduplicated input. -/
def OrdOK (ord : Nat → List Nat → List Nat) : Prop :=
  ∀ step l, (ord step l).Perm (firstSeen l)

/-- The uniform index-draw oracle of `ConstructLayers`
(sampler.cc:571-577): `layer_size` independent draws below the candidate
count (with replacement).  An empty candidate set yields no draws (the
C++ would abort there; runs producing a NodeFlow never reach it). -/
def DrawOK (draw : Nat → Nat → Nat → List Nat) : Prop :=
  ∀ step n k, (n = 0 → draw step n k = []) ∧
    (0 < n → (draw step n k).length = k ∧ ∀ i ∈ draw step n k, i < n)

/-- The layer construction loop of `ConstructLayers` (sampler.cc:555-588):
`layer_sizes` is iterated from its last entry to its first; each round
deduplicates the candidate multiset, draws `sz` ids with replacement and
appends the distinct drawn ids (occurrence-map iteration order). -/
def constructLayersGo (g : SrcCSR) (ord occOrd : Nat → List Nat → List Nat)
    (draw : Nat → Nat → Nat → List Nat) :
    Nat → List Nat → List Nat → List (List Nat)
  | _, _, [] => []
  | step, cur, sz :: rest =>
    let cand := ord step (candidatesOf g cur)
    let drawn := (draw step cand.length sz).map (fun i => cand.getD i 0)
    let nxt := occOrd step drawn
    nxt :: constructLayersGo g ord occOrd draw (step + 1) nxt rest

/-- `ConstructLayers` up to the final reversal: block 0 is the raw seed
array (not deduplicated), later blocks are the sampled layers. -/
def constructLayersBlocks (g : SrcCSR) (ord occOrd : Nat → List Nat → List Nat)
    (draw : Nat → Nat → Nat → List Nat) (seeds : List Nat)
    (layerSizes : List Nat) : List (List Nat) :=
  seeds :: constructLayersGo g ord occOrd draw 0 seeds layerSizes.reverse

/-- The final `std::reverse` of `node_mapping` and `actl_layer_sizes`
(sampler.cc:589-590): the flat reversal turns the block list around and
reverses each block internally. -/
def finalBlocksOf (blocks : List (List Nat)) : List (List Nat) :=
  (blocks.map List.reverse).reverse

/-- One destination of `ConstructFlows` (sampler.cc:623-641): scan its
true neighbor slice, keep neighbors present in the source layer's
first-wins position map, and sort the kept `(dense position, edge id)`
pairs by position. -/
def flowOneDst (g : SrcCSR) (first : Nat) (srcBlock : List Nat)
    (dst : Nat) : List (Nat × Int) :=
  let s := neighSlice g dst
  ((s.1.zip s.2).filterMap (fun q =>
      (srcBlock.findIdx? (fun y => y == q.1)).map
        (fun j => (first + j, q.2)))).insertionSort (fun a b => a.1 ≤ b.1)

/-- Adjacent block pairs together with the running dense-id base `first`
of the source block (sampler.cc:615-643). -/
def adjacentWithFirst : Nat → List (List Nat) →
    List (Nat × List Nat × List Nat)
  | _, [] => []
  | _, [_] => []
  | first, a :: b :: rest =>
    (first, a, b) :: adjacentWithFirst (first + a.length) (b :: rest)

/-- All rows (one inner list per destination) of every flow of
`ConstructFlows`, grouped by flow. -/
def rowsPerFlow (g : SrcCSR) (blocks : List (List Nat)) :
    List (List (List (Nat × Int))) :=
  (adjacentWithFirst 0 blocks).map (fun t => t.2.2.map (flowOneDst g t.1 t.2.1))

/-- `SamplerOp::LayerUniformSample` (sampler.cc:650-708): layers, then
flows, then the assembled NodeFlow. -/
def layerSampleNF (g : SrcCSR) (ord occOrd : Nat → List Nat → List Nat)
    (draw : Nat → Nat → Nat → List Nat) (seeds : List Nat)
    (layerSizes : List Nat) : NodeFlowM :=
  let blocks := finalBlocksOf
    (constructLayersBlocks g ord occOrd draw seeds layerSizes)
  let rows := rowsPerFlow g blocks
  let rowsAll := rows.flatten
  { nodeMapping := blocks.flatten
    edgeMapping := (rowsAll.flatten).map (fun q => q.2)
    layerOffsets := offsetsOf (blocks.map List.length)
    flowOffsets := offsetsOf (rows.map (fun grp => (grp.map List.length).sum))
    indptr := List.replicate ((blocks.headD []).length + 1) 0 ++
      (offsetsOf (rowsAll.map List.length)).drop 1
    colIndices := (rowsAll.flatten).map (fun q => q.1)
    eidsOut := List.range rowsAll.flatten.length }

/-! ## Well-formedness predicates and invariant statements -/

/-- Structural well-formedness of a CSR: the row pointer array has one
entry per row plus one, and the data array parallels the indices. -/
def CSRWF (c : CSRm) : Prop :=
  c.indptr.length = c.numRows + 1 ∧ c.data.length = c.indices.length

/-- A CSR view correctly representing the edge-triple multiset `T` with
the given shape. -/
def CSRok (nr nc : Nat) (T : List (Nat × Nat × Nat)) (c : CSRm) : Prop :=
  c.numRows = nr ∧ c.numCols = nc ∧ CSRWF c ∧
    (∀ v ∈ c.indices, v < c.numCols) ∧ List.Perm (csrTriples c) T

/-- A COO view correctly representing the edge-triple multiset `T` with
the given shape. -/
def COOok (nr nc : Nat) (T : List (Nat × Nat × Nat)) (c : COOm) : Prop :=
  c.numRows = nr ∧ c.numCols = nc ∧ c.col.length = c.row.length ∧
    (∀ v ∈ c.row, v < nr) ∧ (∀ v ∈ c.col, v < nc) ∧ List.Perm (cooTriples c) T

/-- The bipartite invariant (spec section 3): whichever views are present
all represent the same edge multiset `E` (the in-CSR with swapped
endpoints), and at least one view exists. -/
structure BipWF (ns nd : Nat) (E : List (Nat × Nat × Nat)) (b : Bip) :
    Prop where
  some_view : b.inCsr.isSome ∨ b.outCsr.isSome ∨ b.coo.isSome
  in_ok : ∀ c, b.inCsr = some c → CSRok nd ns (E.map swap3) c
  out_ok : ∀ c, b.outCsr = some c → CSRok ns nd E c
  coo_ok : ∀ c, b.coo = some c → COOok ns nd E c

/-- Well-formedness of the source CSR a sampler reads: neighbor entries
are valid vertex ids and the edge-id array parallels the indices. -/
def SrcWF (g : SrcCSR) : Prop :=
  (∀ v ∈ g.indices, v < g.numV) ∧ g.eids.length = g.indices.length

/-- The NodeFlow invariants of the claim: first layer offset zero, last
layer offset the node-mapping length, last flow offset the edge-mapping
length, monotonic CSR `indptr` ending at the edge-mapping length, and
every node-mapping entry a valid source-graph vertex id. -/
def NFInv (numV : Nat) (nf : NodeFlowM) : Prop :=
  nf.layerOffsets.getD 0 1 = 0 ∧
    nf.layerOffsets.getLast? = some nf.nodeMapping.length ∧
    nf.flowOffsets.getLast? = some nf.edgeMapping.length ∧
    nf.indptr.Sorted (· ≤ ·) ∧
    nf.indptr.getLast? = some nf.edgeMapping.length ∧
    ∀ v ∈ nf.nodeMapping, v < numV

/-- Concrete hash-iteration oracle for witnesses: the canonical
first-seen order. -/
def ordFS (step : Nat) (l : List Nat) : List Nat :=
  match step with
  | _ => firstSeen l

/-- Concrete draw oracle for witnesses: always draw index 0. -/
def drawZero (step n k : Nat) : List Nat :=
  match step with
  | _ => if n = 0 then [] else List.replicate k 0

/-! # Theorems

Generic facts about the helper functions, then the per-claim theorems. -/

theorem mem_firstSeen {x : Nat} : ∀ {l : List Nat}, x ∈ firstSeen l ↔ x ∈ l := by
  intro l
  induction l with
  | nil => simp [firstSeen]
  | cons y ys ih =>
    rw [firstSeen]
    by_cases hxy : x = y
    · subst hxy; simp
    · simp only [List.mem_cons, List.mem_filter, decide_eq_true_eq, ih]
      constructor
      · rintro (h | ⟨h, _⟩)
        · exact absurd h hxy
        · exact Or.inr h
      · rintro (h | h)
        · exact absurd h hxy
        · exact Or.inr ⟨h, hxy⟩

theorem nodup_firstSeen : ∀ l : List Nat, (firstSeen l).Nodup := by
  intro l
  induction l with
  | nil => simp [firstSeen]
  | cons y ys ih =>
    rw [firstSeen]
    refine List.Nodup.cons ?_ (List.Nodup.filter _ ih)
    intro hy
    simp only [List.mem_filter, decide_eq_true_eq] at hy
    exact hy.2 rfl

theorem offsetsOf_ne_nil (l : List Nat) : offsetsOf l ≠ [] := by
  cases l <;> simp [offsetsOf]

theorem length_offsetsOf (l : List Nat) :
    (offsetsOf l).length = l.length + 1 := by
  induction l with
  | nil => simp [offsetsOf]
  | cons n ns ih => simp [offsetsOf, ih]

theorem getD_map_of_lt {α β : Type} (f : α → β) (l : List α) (i : Nat)
    (d : β) (d0 : α) (h : i < l.length) :
    (l.map f).getD i d = f (l.getD i d0) := by
  rw [List.getD_eq_getElem l d0 h,
    List.getD_eq_getElem (l.map f) d (by simpa using h)]
  simp

theorem offsetsOf_getD (l : List Nat) (i : Nat) (h : i ≤ l.length) :
    (offsetsOf l).getD i 0 = (l.take i).sum := by
  induction l generalizing i with
  | nil =>
    have h0 : i = 0 := Nat.le_zero.mp h
    subst h0
    simp [offsetsOf]
  | cons n ns ih =>
    cases i with
    | zero => simp [offsetsOf]
    | succ j =>
      have hj : j ≤ ns.length := by simp at h; omega
      have hlt : j < (offsetsOf ns).length := by
        rw [length_offsetsOf]; omega
      simp only [offsetsOf, List.getD_cons_succ]
      rw [getD_map_of_lt _ _ _ _ 0 hlt, ih j hj]
      simp [List.take_succ_cons]

theorem offsetsOf_getD_zero (l : List Nat) : (offsetsOf l).getD 0 0 = 0 := by
  simpa using offsetsOf_getD l 0 (Nat.zero_le _)

theorem offsetsOf_getD_length (l : List Nat) :
    (offsetsOf l).getD l.length 0 = l.sum := by
  simpa using offsetsOf_getD l l.length le_rfl

theorem getLast?_offsetsOf (l : List Nat) :
    (offsetsOf l).getLast? = some l.sum := by
  rw [List.getLast?_eq_getElem?]
  have hlen : (offsetsOf l).length - 1 = l.length := by
    rw [length_offsetsOf]
    omega
  have hm : l.length < (offsetsOf l).length := by rw [length_offsetsOf]; omega
  rw [hlen, List.getElem?_eq_getElem hm, ← List.getD_eq_getElem _ 0 hm,
    offsetsOf_getD_length]

theorem sorted_offsetsOf (l : List Nat) : (offsetsOf l).Sorted (· ≤ ·) := by
  induction l with
  | nil => simp [offsetsOf]
  | cons n ns ih =>
    rw [offsetsOf, List.sorted_cons]
    constructor
    · intro b hb; exact Nat.zero_le b
    · exact List.Pairwise.map _ (fun a b hab => Nat.add_le_add_left hab n) ih

theorem offsetsOf_getD_le_sum (l : List Nat) (i : Nat) :
    (offsetsOf l).getD i 0 ≤ l.sum := by
  by_cases h : i ≤ l.length
  · rw [offsetsOf_getD l i h]
    exact (List.take_sublist i l).sum_le_sum (fun _ _ => Nat.zero_le _)
  · rw [List.getD_eq_default]
    · exact Nat.zero_le _
    · rw [length_offsetsOf]; omega

theorem sorted_le_getD_mono {l : List Nat} (h : l.Sorted (· ≤ ·))
    {i j : Nat} (hij : i ≤ j) (hj : j < l.length) :
    l.getD i 0 ≤ l.getD j 0 := by
  rcases Nat.lt_or_ge i j with hlt | hge
  · rw [List.getD_eq_getElem _ 0 (Nat.lt_of_le_of_lt hij hj),
      List.getD_eq_getElem _ 0 hj]
    exact List.pairwise_iff_getElem.mp h i j _ hj hlt
  · have : i = j := Nat.le_antisymm hij hge
    subst this; exact le_rfl

theorem map_getD_range {α : Type} (l : List α) (d : α) :
    (List.range l.length).map (fun i => l.getD i d) = l := by
  induction l with
  | nil => simp
  | cons a l ih =>
    rw [List.length_cons, List.range_succ_eq_map, List.map_cons,
      List.map_map]
    refine congrArg₂ List.cons (by simp) ?_
    have he : ((fun i => (a :: l).getD i d) ∘ Nat.succ) =
        (fun i => l.getD i d) := by
      funext i
      simp [Function.comp, List.getD_cons_succ]
    rw [he, ih]

theorem pickOK_pickLast : PickOK pickLast := by
  intro len k hk
  refine ⟨List.Pairwise.drop (List.sorted_lt_range len), ?_, ?_⟩
  · rw [pickLast, List.length_drop, List.length_range]
    omega
  · intro i hi
    exact List.mem_range.mp (List.mem_of_mem_drop hi)

/-- C10: in uniform neighbor-list sampling the two outputs have equal
length `min n k`, and both are index-selections of the input slices along
one common, strictly increasing position list — so the `i`-th output
vertex and the `i`-th output edge id come from the same adjacency
position, in original adjacency order. -/
theorem c10_uniform_sample_pairing (pick : Nat → Nat → List Nat)
    (eids : List Int) (vids : List Nat) (k : Nat)
    (hp : PickOK pick) (hlen : eids.length = vids.length) :
    (getUniformSample pick eids vids k).1.length = min vids.length k ∧
    (getUniformSample pick eids vids k).2.length =
      (getUniformSample pick eids vids k).1.length ∧
    ∃ idxs : List Nat, idxs.Sorted (· < ·) ∧
      (∀ i ∈ idxs, i < vids.length) ∧
      (getUniformSample pick eids vids k).1 =
        idxs.map (fun i => vids.getD i 0) ∧
      (getUniformSample pick eids vids k).2 =
        idxs.map (fun i => eids.getD i 0) := by
  by_cases h : vids.length ≤ k
  · simp only [getUniformSample, if_pos h]
    refine ⟨(Nat.min_eq_left h).symm, hlen, List.range vids.length,
      List.sorted_lt_range _, fun i hi => List.mem_range.mp hi, ?_, ?_⟩
    · exact (map_getD_range vids 0).symm
    · rw [← hlen]
      exact (map_getD_range eids 0).symm
  · have hk : k < vids.length := Nat.lt_of_not_le h
    obtain ⟨hs, hl, hb⟩ := hp vids.length k hk
    simp only [getUniformSample, if_neg h]
    refine ⟨?_, ?_, pick vids.length k, hs, hb, rfl, rfl⟩
    · rw [List.length_map, hl, Nat.min_eq_right (Nat.le_of_lt hk)]
    · rw [List.length_map, List.length_map]

theorem c10_uniform_sample_pairing_witness :
    PickOK pickLast ∧
    (∃ idxs : List Nat, idxs.Sorted (· < ·) ∧
      (∀ i ∈ idxs, i < ([1, 2, 3] : List Nat).length) ∧
      (getUniformSample pickLast [5, 6, 7] [1, 2, 3] 2).1 =
        idxs.map (fun i => ([1, 2, 3] : List Nat).getD i 0) ∧
      (getUniformSample pickLast [5, 6, 7] [1, 2, 3] 2).2 =
        idxs.map (fun i => ([5, 6, 7] : List Int).getD i 0)) :=
  ⟨pickOK_pickLast,
    (c10_uniform_sample_pairing pickLast [5, 6, 7] [1, 2, 3] 2
      pickOK_pickLast rfl).2.2⟩

/-- C5: the weighted (probability-driven) sampler, in the sampled case
`|N(d)| > k`, sorts the output vertex list and the output edge-id list
ascending independently of each other (each a permutation of the
position-paired selections); consequently an output pair need not be an
input adjacency pair, exhibited at a concrete input. -/
theorem c5_weighted_sampler_sorts_independently :
    (∀ (draw : List Nat) (eids : List Int) (vids : List Nat) (k : Nat),
      k < vids.length →
      (getNonUniformSample draw eids vids k).1.Sorted (· ≤ ·) ∧
      (getNonUniformSample draw eids vids k).2.Sorted (· ≤ ·) ∧
      List.Perm (getNonUniformSample draw eids vids k).1
        (draw.map (fun i => vids.getD i 0)) ∧
      List.Perm (getNonUniformSample draw eids vids k).2
        (draw.map (fun i => eids.getD i 0))) ∧
    (getNonUniformSample [0, 1] [10, 11, 12] [5, 1, 7] 2 =
      ([1, 5], [10, 11]) ∧
      ((1 : Nat), (10 : Int)) ∉ ([5, 1, 7].zip ([10, 11, 12] : List Int))) := by
  constructor
  · intro draw eids vids k hk
    simp only [getNonUniformSample, if_neg (Nat.not_le.mpr hk)]
    exact ⟨List.sorted_insertionSort _ _, List.sorted_insertionSort _ _,
      List.perm_insertionSort _ _, List.perm_insertionSort _ _⟩
  · exact ⟨by decide, by decide⟩

theorem c5_weighted_sampler_witness :
    (2 : Nat) < ([5, 1, 7] : List Nat).length ∧
    (getNonUniformSample [0, 1] [10, 11, 12] [5, 1, 7] 2).1.Sorted (· ≤ ·) :=
  ⟨by decide,
    (c5_weighted_sampler_sorts_independently.1 [0, 1] [10, 11, 12]
      [5, 1, 7] 2 (by decide)).1⟩

/-- C4 counterexample: destination `0` has a self-edge (position 0 of its
adjacency slice `[0,1,2]`), yet with `k = 2` a run that samples positions
`[1,2]` (reachable: `RandomSample` may return any index set of the right
size) leaves `0` outside the sampled list, so the self-loop block appends
`0` with the found self-edge id `7` — the per-destination sampled list is
changed, refuting the claim that a vertex with a self-edge is a no-op. -/
theorem c4_counterexample_self_edge_not_noop :
    PickOK pickLast ∧
    (0 : Nat) ∈ ([0, 1, 2] : List Nat) ∧
    sampleOneDst pickLast true [7, 8, 9] [0, 1, 2] 2 0 ≠
      sampleOneDst pickLast false [7, 8, 9] [0, 1, 2] 2 0 ∧
    sampleOneDst pickLast true [7, 8, 9] [0, 1, 2] 2 0 =
      ([1, 2, 0], [8, 9, 7]) :=
  ⟨pickOK_pickLast, by decide, by decide, by decide⟩

/-- C4 amended: the self-loop block is a no-op exactly when the
destination is already among the *sampled* vertices; otherwise the
destination is appended, with edge id `-1` exactly when the original
adjacency slice holds no self-edge (and the slice's edge id of the first
self-edge otherwise); in particular a destination absent from its own
adjacency slice always receives `-1`, and in the keep-all case
(`|N(d)| ≤ k`) a destination with a self-edge is indeed unchanged. -/
theorem c4_amended_self_loop (dstId : Nat) (eidS : List Int)
    (vidS : List Nat) (sv : List Nat) (se : List Int)
    (hlen : eidS.length = vidS.length) (hpos : ∀ e ∈ eidS, 0 ≤ e) :
    (dstId ∈ sv → addSelfLoop dstId eidS vidS sv se = (sv, se)) ∧
    (dstId ∉ sv → ∃ e, addSelfLoop dstId eidS vidS sv se =
        (sv ++ [dstId], se ++ [e]) ∧ (e = -1 ↔ dstId ∉ vidS)) ∧
    (dstId ∉ sv → dstId ∉ vidS →
      addSelfLoop dstId eidS vidS sv se = (sv ++ [dstId], se ++ [-1])) ∧
    (∀ pick k, vidS.length ≤ k → dstId ∈ vidS →
      sampleOneDst pick true eidS vidS k dstId = (vidS, eidS)) := by
  have hnone : dstId ∉ vidS →
      vidS.findIdx? (fun v => v == dstId) = none := by
    intro hout
    rw [List.findIdx?_eq_none_iff]
    intro x hx
    rw [beq_eq_false_iff_ne]
    intro hxd
    exact hout (hxd ▸ hx)
  refine ⟨fun hin => by simp [addSelfLoop, hin], ?_, ?_, ?_⟩
  · intro hout
    rw [addSelfLoop, if_neg hout]
    cases hfi : vidS.findIdx? (fun v => v == dstId) with
    | none =>
      refine ⟨-1, rfl, ?_⟩
      simp only [iff_true_intro rfl, true_iff]
      intro hmem
      have := hnone
      rw [List.findIdx?_eq_none_iff] at hfi
      have := hfi dstId hmem
      simp at this
    | some i =>
      have hi : i < vidS.length :=
        (List.findIdx?_eq_some_iff_findIdx_eq.mp hfi).1
      have hmem : dstId ∈ vidS := by
        have := List.findIdx?_eq_some_iff_getElem.mp hfi
        obtain ⟨hlt, hp, -⟩ := this
        simp only [beq_iff_eq] at hp
        exact hp ▸ List.getElem_mem hlt
      refine ⟨eidS.getD i 0, rfl, ?_⟩
      have hie : i < eidS.length := by omega
      have hememb : eidS.getD i 0 ∈ eidS := by
        rw [List.getD_eq_getElem _ _ hie]
        exact List.getElem_mem hie
      have : (0 : Int) ≤ eidS.getD i 0 := hpos _ hememb
      constructor
      · intro he; omega
      · intro habs; exact absurd hmem habs
  · intro hout houtv
    rw [addSelfLoop, if_neg hout, hnone houtv]
  · intro pick k hke hin
    simp [sampleOneDst, getUniformSample, if_pos hke, addSelfLoop, hin]

theorem c4_amended_self_loop_witness :
    (∀ e ∈ ([7] : List Int), 0 ≤ e) ∧
    addSelfLoop 5 [7] [3] [3] [7] = ([3] ++ [5], [7] ++ [-1]) :=
  ⟨by decide,
    (c4_amended_self_loop 5 [7] [3] [3] [7] rfl (by decide)).2.2.1
      (by decide) (by decide)⟩

/-- C9: the neighbor-sampling C API accepts the probability argument
exactly when it is a float vector of dimension 1 whose length is zero or
equals the edge count (contiguity only checked in the nonzero case); a
length-0 vector makes the call identical to the uniform-sampling entry
point (null probability); a nonzero length different from the edge count
aborts with the shape-mismatch error instead of returning flows. -/
theorem c9_probability_validation {α : Type} (impl : Option ProbArg → α)
    (numEdges : Nat) (p : ProbArg) :
    ((∃ r, neighborSamplingCAPI impl numEdges p = Except.ok r) ↔
      (p.isFloat = true ∧ p.ndim = 1 ∧
        (p.len = 0 ∨ (p.len = numEdges ∧ p.contiguous = true)))) ∧
    (p.isFloat = true → p.ndim = 1 → p.len = 0 →
      neighborSamplingCAPI impl numEdges p = uniformSamplingCAPI impl) ∧
    (p.isFloat = true → p.ndim = 1 → p.len ≠ 0 → p.len ≠ numEdges →
      neighborSamplingCAPI impl numEdges p = Except.error
        "transition probability must have same number of elements as edges") := by
  unfold neighborSamplingCAPI uniformSamplingCAPI
  split_ifs with h1 h2 h3 h4 h5 <;> simp_all

theorem c9_probability_validation_witness :
    ((true : Bool) = true) ∧
    neighborSamplingCAPI (fun o => o) 4
        { isFloat := true, ndim := 1, len := 0, contiguous := false } =
      uniformSamplingCAPI (fun o => o) :=
  ⟨rfl, (c9_probability_validation (fun o => o) 4
      { isFloat := true, ndim := 1, len := 0, contiguous := false }).2.1
      rfl rfl rfl⟩

theorem vertCountAt_foldl_none (rels : List (Nat × Nat)) (L : List Nat) :
    L.foldl (fun acc t =>
      match acc with
      | none => none
      | some cur =>
        let nv : Int := ((rels.getD t (0, 0)).1 : Int)
        if cur < 0 then some nv
        else if cur = nv then some cur
        else none) none = none := by
  induction L with
  | nil => rfl
  | cons t L ih => simpa using ih

theorem vertCountAt_foldl_agree (rels : List (Nat × Nat)) (L : List Nat) :
    ∀ (c cv : Int), ¬ c < 0 →
    L.foldl (fun acc t =>
      match acc with
      | none => none
      | some cur =>
        let nv : Int := ((rels.getD t (0, 0)).1 : Int)
        if cur < 0 then some nv
        else if cur = nv then some cur
        else none) (some c) = some cv →
    cv = c ∧ ∀ t ∈ L, ((rels.getD t (0, 0)).1 : Int) = c := by
  induction L with
  | nil =>
    intro c cv hc h
    simp only [List.foldl_nil, Option.some.injEq] at h
    exact ⟨h.symm, by simp⟩
  | cons t L ih =>
    intro c cv hc h
    simp only [List.foldl_cons, if_neg hc] at h
    by_cases he : c = ((rels.getD t (0, 0)).1 : Int)
    · rw [if_pos he] at h
      obtain ⟨h1, h2⟩ := ih c cv hc h
      refine ⟨h1, ?_⟩
      intro u hu
      rcases List.mem_cons.mp hu with hu0 | hu1
      · subst hu0; exact he.symm
      · exact h2 u hu1
    · rw [if_neg he] at h
      rw [vertCountAt_foldl_none] at h
      exact absurd h (by simp)

theorem heteroGraphCons_getD (mg : MetaG) (rels : List (Nat × Nat))
    (nvs : List Int) (h : heteroGraphCons mg rels = some nvs) (v : Nat)
    (hv : v < mg.numVerts) :
    vertCountAt mg rels v = some (nvs.getD v 0) := by
  unfold heteroGraphCons at h
  split_ifs at h with h1 h2
  simp only [] at h
  split_ifs at h with h3
  · simp only [Option.some.injEq] at h
    subst h
    have hvlen : v <
        ((List.range mg.numVerts).map (vertCountAt mg rels)).length := by
      simpa using hv
    rw [getD_map_of_lt _ _ _ _ none hvlen,
      getD_map_of_lt _ _ _ _ 0 (by simpa using hv),
      List.getD_eq_getElem _ 0 (by simpa using hv), List.getElem_range]
    have hsome : (vertCountAt mg rels v).isSome := by
      have := List.all_eq_true.mp h3
        ((vertCountAt mg rels v))
        (by
          refine List.mem_map.mpr ⟨v, List.mem_range.mpr hv, rfl⟩)
      simpa using this
    obtain ⟨cv, hcv⟩ := Option.isSome_iff_exists.mp hsome
    rw [hcv]
    rfl

/-- C2 amended: on successful construction, for every vertex type `v`,
`num_verts_per_type[v]` equals the src-side vertex count of *every*
relation whose meta-graph src-type is `v` (so those all agree), and is
the sentinel `-1` when no relation has src-type `v`.  The dst side is
never inspected (see the counterexample). -/
theorem c2_amended_src_side_agreement (mg : MetaG)
    (rels : List (Nat × Nat)) (nvs : List Int)
    (h : heteroGraphCons mg rels = some nvs) :
    ∀ v, v < mg.numVerts →
      (∀ t, t < mg.edges.length → (mg.edges.getD t (0, 0)).1 = v →
        nvs.getD v 0 = ((rels.getD t (0, 0)).1 : Int)) ∧
      ((∀ t, t < mg.edges.length → (mg.edges.getD t (0, 0)).1 ≠ v) →
        nvs.getD v 0 = -1) := by
  intro v hv
  have hva := heteroGraphCons_getD mg rels nvs h v hv
  rw [vertCountAt] at hva
  constructor
  · intro t ht hsrc
    have htmem : t ∈ (List.range mg.edges.length).filter
        (fun u => (mg.edges.getD u (0, 0)).1 == v) := by
      rw [List.mem_filter]
      exact ⟨List.mem_range.mpr ht, by simpa using hsrc⟩
    rcases hLv : (List.range mg.edges.length).filter
        (fun u => (mg.edges.getD u (0, 0)).1 == v) with _ | ⟨t0, L1⟩
    · rw [hLv] at htmem; simp at htmem
    · rw [hLv] at hva htmem
      simp only [List.foldl_cons] at hva
      rw [if_pos (by norm_num)] at hva
      have hnn : ¬ (((rels.getD t0 (0, 0)).1 : Int) < 0) := by
        rw [Int.not_lt]
        exact Int.natCast_nonneg _
      obtain ⟨h1, h2⟩ := vertCountAt_foldl_agree rels L1 _ _ hnn hva
      rcases List.mem_cons.mp htmem with h5 | h5
      · subst h5; exact h1
      · rw [h1]; exact (h2 t h5).symm
  · intro hnone
    have hLv : (List.range mg.edges.length).filter
        (fun u => (mg.edges.getD u (0, 0)).1 == v) = [] := by
      rw [List.filter_eq_nil_iff]
      intro t ht
      have := hnone t (List.mem_range.mp ht)
      simpa using this
    rw [hLv] at hva
    simp only [List.foldl_nil, Option.some.injEq] at hva
    exact hva.symm

/-- C2 counterexample: meta-graph `A→B, C→B` with relations of shape
`(1,3)` and `(1,5)` constructs successfully — the two relations share
dst-type `B` yet disagree on its vertex count (3 vs 5), and
`num_verts_per_type[B]` is left at the sentinel `-1`; construction does
not require dst-side agreement. -/
theorem c2_counterexample_dst_side_unchecked :
    heteroGraphCons { numVerts := 3, edges := [(0, 1), (2, 1)] }
        [(1, 3), (1, 5)] = some [1, -1, 1] ∧
    (([(0, 1), (2, 1)] : List (Nat × Nat)).getD 0 (0, 0)).2 = 1 ∧
    (([(0, 1), (2, 1)] : List (Nat × Nat)).getD 1 (0, 0)).2 = 1 ∧
    (([(1, 3), (1, 5)] : List (Nat × Nat)).getD 0 (0, 0)).2 ≠
      (([(1, 3), (1, 5)] : List (Nat × Nat)).getD 1 (0, 0)).2 := by
  refine ⟨by decide, by decide, by decide, by decide⟩

theorem c2_amended_src_side_agreement_witness :
    heteroGraphCons { numVerts := 2, edges := [(0, 1)] } [(4, 7)] =
      some [4, -1] ∧
    ([4, -1] : List Int).getD 0 0 =
      ((([(4, 7)] : List (Nat × Nat)).getD 0 (0, 0)).1 : Int) :=
  ⟨by decide,
    ((c2_amended_src_side_agreement { numVerts := 2, edges := [(0, 1)] }
      [(4, 7)] [4, -1] (by decide)) 0 (by decide)).1 0 (by decide) rfl⟩

theorem mem_relabelMapOf {x : Nat} {arrays : List (List Nat)} :
    x ∈ relabelMapOf arrays ↔ ∃ arr ∈ arrays, x ∈ arr := by
  rw [relabelMapOf, mem_firstSeen, List.mem_flatten]

theorem nodup_relabelMapOf (arrays : List (List Nat)) :
    (relabelMapOf arrays).Nodup :=
  nodup_firstSeen _

theorem relabelApply_roundtrip (m : List Nat) (arr : List Nat)
    (hsub : ∀ y ∈ arr, y ∈ m) (i : Nat) (hi : i < arr.length) :
    (relabelApply m arr).getD i 0 < m.length ∧
      m.getD ((relabelApply m arr).getD i 0) 0 = arr.getD i 0 := by
  rw [relabelApply, getD_map_of_lt _ _ _ _ 0 hi]
  set x := arr.getD i 0 with hx
  have hxm : x ∈ m := by
    refine hsub x ?_
    rw [hx, List.getD_eq_getElem _ 0 hi]
    exact List.getElem_mem hi
  have hfind : m.findIdx (fun y => y == x) < m.length :=
    List.findIdx_lt_length_of_exists ⟨x, hxm, by simp⟩
  refine ⟨hfind, ?_⟩
  have := @List.findIdx_getElem _ (fun y => y == x) m hfind
  rw [List.getD_eq_getElem _ 0 hfind]
  simpa using this

theorem mem_vtypeBucket {mg : MetaG} {rels : List COOm}
    {eids : List (List Nat)} {v : Nat} {arr : List Nat} :
    arr ∈ vtypeBucket mg rels eids v ↔
      ∃ t, t < mg.edges.length ∧
        (((mg.edges.getD t (0, 0)).1 = v ∧
          arr = selectedSrc
            (rels.getD t { numRows := 0, numCols := 0, row := [], col := [] })
            (eids.getD t [])) ∨
         ((mg.edges.getD t (0, 0)).2 = v ∧
          arr = selectedDst
            (rels.getD t { numRows := 0, numCols := 0, row := [], col := [] })
            (eids.getD t []))) := by
  rw [vtypeBucket, List.mem_flatten]
  constructor
  · rintro ⟨l, hl, hal⟩
    obtain ⟨t, ht, rfl⟩ := List.mem_map.mp hl
    have ht' := List.mem_range.mp ht
    refine ⟨t, ht', ?_⟩
    rcases List.mem_append.mp hal with h | h
    · split_ifs at h with hc
      · simp only [List.mem_singleton] at h
        exact Or.inl ⟨hc, h⟩
      · simp at h
    · split_ifs at h with hc
      · simp only [List.mem_singleton] at h
        exact Or.inr ⟨hc, h⟩
      · simp at h
  · rintro ⟨t, ht, h | h⟩
    · refine ⟨_, List.mem_map.mpr ⟨t, List.mem_range.mpr ht, rfl⟩, ?_⟩
      rw [List.mem_append]
      exact Or.inl (by rw [if_pos h.1]; simp [h.2])
    · refine ⟨_, List.mem_map.mpr ⟨t, List.mem_range.mpr ht, rfl⟩, ?_⟩
      rw [List.mem_append]
      exact Or.inr (by rw [if_pos h.1]; simp [h.2])

theorem edgeSubgraph_induced_getD (mg : MetaG) (rels : List COOm)
    (eids : List (List Nat)) (v : Nat) (hv : v < mg.numVerts) :
    (edgeSubgraphNoPreserveNodes mg rels eids).1.getD v [] =
      relabelMapOf (vtypeBucket mg rels eids v) := by
  rw [edgeSubgraphNoPreserveNodes]
  simp only []
  rw [getD_map_of_lt _ _ _ _ 0 (by simpa using hv),
    List.getD_eq_getElem _ 0 (by simpa using hv), List.getElem_range]

theorem edgeSubgraph_newRel_getD (mg : MetaG) (rels : List COOm)
    (eids : List (List Nat)) (t : Nat) (ht : t < mg.edges.length) :
    (edgeSubgraphNoPreserveNodes mg rels eids).2.getD t
        { numRows := 0, numCols := 0, row := [], col := [] } =
      (let induced := (edgeSubgraphNoPreserveNodes mg rels eids).1
       let p := mg.edges.getD t (0, 0)
       let rel := rels.getD t
         { numRows := 0, numCols := 0, row := [], col := [] }
       let sel := eids.getD t []
       { numRows := (induced.getD p.1 []).length
         numCols := (induced.getD p.2 []).length
         row := relabelApply (induced.getD p.1 []) (selectedSrc rel sel)
         col := relabelApply (induced.getD p.2 []) (selectedDst rel sel) :
           COOm }) := by
  conv_lhs => rw [edgeSubgraphNoPreserveNodes]
  simp only []
  rw [getD_map_of_lt _ _ _ _ 0 (by simpa using ht),
    List.getD_eq_getElem _ 0 (by simpa using ht), List.getElem_range]
  rw [edgeSubgraphNoPreserveNodes]

/-- C1: in `edge_subgraph(preserve_nodes=false)` on a heterograph, each
vertex type's induced array is the duplicate-free first-seen union of the
selected src endpoints of relations with that src-type and the selected
dst endpoints of relations with that dst-type (the `Relabel_` mapping);
every rebuilt relation lives in the shared per-type id space — its
densified ids decode through the common induced array back to the original
endpoint ids, and its vertex counts are the shared induced sizes.  On the
meta-graph `A→B→C` with `A→B = {(0,0),(0,1)}`, `B→C = {(1,0),(1,1)}` and
`eids = [[0],[0]]`, the induced `B` is `[0,1]` (so `|V_B| = 2`), the new
`A→B` is the single edge `(0,0)` and the new `B→C` the single edge
`(1,0)`. -/
theorem c1_hetero_edge_subgraph_common_id_space :
    (∀ (mg : MetaG) (rels : List COOm) (eids : List (List Nat)) (v : Nat),
      v < mg.numVerts →
      ((edgeSubgraphNoPreserveNodes mg rels eids).1.getD v []).Nodup ∧
      (∀ x, x ∈ (edgeSubgraphNoPreserveNodes mg rels eids).1.getD v [] ↔
        ∃ t, t < mg.edges.length ∧
          (((mg.edges.getD t (0, 0)).1 = v ∧
            x ∈ selectedSrc (rels.getD t
              { numRows := 0, numCols := 0, row := [], col := [] })
              (eids.getD t [])) ∨
           ((mg.edges.getD t (0, 0)).2 = v ∧
            x ∈ selectedDst (rels.getD t
              { numRows := 0, numCols := 0, row := [], col := [] })
              (eids.getD t []))))) ∧
    (∀ (mg : MetaG) (rels : List COOm) (eids : List (List Nat)) (t : Nat),
      t < mg.edges.length →
      (mg.edges.getD t (0, 0)).1 < mg.numVerts →
      (mg.edges.getD t (0, 0)).2 < mg.numVerts →
      ((edgeSubgraphNoPreserveNodes mg rels eids).2.getD t
          { numRows := 0, numCols := 0, row := [], col := [] }).numRows =
        ((edgeSubgraphNoPreserveNodes mg rels eids).1.getD
          (mg.edges.getD t (0, 0)).1 []).length ∧
      ((edgeSubgraphNoPreserveNodes mg rels eids).2.getD t
          { numRows := 0, numCols := 0, row := [], col := [] }).numCols =
        ((edgeSubgraphNoPreserveNodes mg rels eids).1.getD
          (mg.edges.getD t (0, 0)).2 []).length ∧
      (∀ i, i < (selectedSrc (rels.getD t
          { numRows := 0, numCols := 0, row := [], col := [] })
          (eids.getD t [])).length →
        ((edgeSubgraphNoPreserveNodes mg rels eids).2.getD t
            { numRows := 0, numCols := 0, row := [], col := [] }).row.getD i 0 <
          ((edgeSubgraphNoPreserveNodes mg rels eids).1.getD
            (mg.edges.getD t (0, 0)).1 []).length ∧
        ((edgeSubgraphNoPreserveNodes mg rels eids).1.getD
            (mg.edges.getD t (0, 0)).1 []).getD
          (((edgeSubgraphNoPreserveNodes mg rels eids).2.getD t
            { numRows := 0, numCols := 0, row := [], col := [] }).row.getD i 0)
          0 =
          (selectedSrc (rels.getD t
            { numRows := 0, numCols := 0, row := [], col := [] })
            (eids.getD t [])).getD i 0) ∧
      (∀ i, i < (selectedDst (rels.getD t
          { numRows := 0, numCols := 0, row := [], col := [] })
          (eids.getD t [])).length →
        ((edgeSubgraphNoPreserveNodes mg rels eids).2.getD t
            { numRows := 0, numCols := 0, row := [], col := [] }).col.getD i 0 <
          ((edgeSubgraphNoPreserveNodes mg rels eids).1.getD
            (mg.edges.getD t (0, 0)).2 []).length ∧
        ((edgeSubgraphNoPreserveNodes mg rels eids).1.getD
            (mg.edges.getD t (0, 0)).2 []).getD
          (((edgeSubgraphNoPreserveNodes mg rels eids).2.getD t
            { numRows := 0, numCols := 0, row := [], col := [] }).col.getD i 0)
          0 =
          (selectedDst (rels.getD t
            { numRows := 0, numCols := 0, row := [], col := [] })
            (eids.getD t [])).getD i 0)) ∧
    (edgeSubgraphNoPreserveNodes { numVerts := 3, edges := [(0, 1), (1, 2)] }
        [{ numRows := 1, numCols := 2, row := [0, 0], col := [0, 1] },
         { numRows := 2, numCols := 2, row := [1, 1], col := [0, 1] }]
        [[0], [0]] =
      ([[0], [0, 1], [0]],
       [{ numRows := 1, numCols := 2, row := [0], col := [0] },
        { numRows := 2, numCols := 1, row := [1], col := [0] }])) := by
  refine ⟨?_, ?_, by decide⟩
  · intro mg rels eids v hv
    rw [edgeSubgraph_induced_getD mg rels eids v hv]
    refine ⟨nodup_relabelMapOf _, ?_⟩
    intro x
    rw [mem_relabelMapOf]
    constructor
    · rintro ⟨arr, harr, hx⟩
      obtain ⟨t, ht, hcases⟩ := mem_vtypeBucket.mp harr
      exact ⟨t, ht, by
        rcases hcases with ⟨h1, rfl⟩ | ⟨h1, rfl⟩
        · exact Or.inl ⟨h1, hx⟩
        · exact Or.inr ⟨h1, hx⟩⟩
    · rintro ⟨t, ht, ⟨h1, hx⟩ | ⟨h1, hx⟩⟩
      · exact ⟨_, mem_vtypeBucket.mpr ⟨t, ht, Or.inl ⟨h1, rfl⟩⟩, hx⟩
      · exact ⟨_, mem_vtypeBucket.mpr ⟨t, ht, Or.inr ⟨h1, rfl⟩⟩, hx⟩
  · intro mg rels eids t ht hsv hdv
    rw [edgeSubgraph_newRel_getD mg rels eids t ht]
    simp only []
    have hsubS : ∀ y ∈ selectedSrc (rels.getD t
        { numRows := 0, numCols := 0, row := [], col := [] })
        (eids.getD t []),
        y ∈ (edgeSubgraphNoPreserveNodes mg rels eids).1.getD
          (mg.edges.getD t (0, 0)).1 [] := by
      intro y hy
      rw [edgeSubgraph_induced_getD mg rels eids _ hsv, mem_relabelMapOf]
      exact ⟨_, mem_vtypeBucket.mpr ⟨t, ht, Or.inl ⟨rfl, rfl⟩⟩, hy⟩
    have hsubD : ∀ y ∈ selectedDst (rels.getD t
        { numRows := 0, numCols := 0, row := [], col := [] })
        (eids.getD t []),
        y ∈ (edgeSubgraphNoPreserveNodes mg rels eids).1.getD
          (mg.edges.getD t (0, 0)).2 [] := by
      intro y hy
      rw [edgeSubgraph_induced_getD mg rels eids _ hdv, mem_relabelMapOf]
      exact ⟨_, mem_vtypeBucket.mpr ⟨t, ht, Or.inr ⟨rfl, rfl⟩⟩, hy⟩
    refine ⟨by trivial, by trivial, ?_, ?_⟩
    · intro i hi
      exact relabelApply_roundtrip _ _ hsubS i hi
    · intro i hi
      exact relabelApply_roundtrip _ _ hsubD i hi

theorem c1_hetero_edge_subgraph_witness :
    (1 : Nat) <
      ({ numVerts := 3, edges := [(0, 1), (1, 2)] } : MetaG).numVerts ∧
    ((edgeSubgraphNoPreserveNodes
        { numVerts := 3, edges := [(0, 1), (1, 2)] }
        [{ numRows := 1, numCols := 2, row := [0, 0], col := [0, 1] },
         { numRows := 2, numCols := 2, row := [1, 1], col := [0, 1] }]
        [[0], [0]]).1.getD 1 []).Nodup :=
  ⟨by decide,
    (c1_hetero_edge_subgraph_common_id_space.1
      { numVerts := 3, edges := [(0, 1), (1, 2)] }
      [{ numRows := 1, numCols := 2, row := [0, 0], col := [0, 1] },
       { numRows := 2, numCols := 2, row := [1, 1], col := [0, 1] }]
      [[0], [0]] 1 (by decide)).1⟩

/-- C8 counterexample: on the COO-built graph `num_src=3, num_dst=4,
row=[0,0,1,2], col=[1,2,0,3]`, `get_adj(transpose=false, fmt="coo")`
returns `hstack(col,row) = [1,2,0,3,0,0,1,2]`, not the input stacked
`hstack(row,col)` — `Bipartite::GetAdj` negates the transpose flag before
delegating to `COO::GetAdj` (bipartite.cc:721). -/
theorem c8_counterexample_coo_adj_not_input_stacked :
    (getAdj (createFromCOO 3 4 [0, 0, 1, 2] [1, 2, 0, 3]) false "coo").1 =
      some [[1, 2, 0, 3, 0, 0, 1, 2]] ∧
    some [[1, 2, 0, 3, 0, 0, 1, 2]] ≠
      some [hstack [0, 0, 1, 2] [1, 2, 0, 3]] := by
  exact ⟨by decide, by decide⟩

/-- C8 amended: for every COO-built bipartite graph,
`get_adj(transpose=false, fmt="coo")` returns `hstack(col, row)` and
`get_adj(transpose=true, fmt="coo")` returns the input stacked
`hstack(row, col)` — the transpose flag is flipped before reaching the
COO view, matching the row-for-dst adjacency convention. -/
theorem c8_amended_coo_adj_is_flipped (ns nd : Nat) (row col : List Nat) :
    (getAdj (createFromCOO ns nd row col) false "coo").1 =
      some [hstack col row] ∧
    (getAdj (createFromCOO ns nd row col) true "coo").1 =
      some [hstack row col] := by
  constructor <;> rfl

theorem sum_range_single (n j c : Nat) :
    ((List.range n).map (fun r => if j = r then c else 0)).sum =
      if j < n then c else 0 := by
  induction n with
  | zero => simp
  | succ m ih =>
    rw [List.range_succ, List.map_append, List.sum_append, ih]
    by_cases h : j < m
    · have hjm : j ≠ m := by omega
      have h1 : j < m + 1 := by omega
      simp [hjm, h, h1]
    · by_cases h2 : j = m
      · subst h2
        simp [h]
      · have h3 : ¬ j < m + 1 := by omega
        simp [h, h2, h3]

theorem bucketBy_flatten_perm {α : Type} [DecidableEq α] (key : α → Nat)
    (nr : Nat) (l : List α) (hk : ∀ x ∈ l, key x < nr) :
    List.Perm (bucketBy key nr l).flatten l := by
  rw [List.perm_iff_count]
  intro a
  rw [List.count_flatten, bucketBy, List.map_map]
  by_cases ha : a ∈ l
  · have : ((List.range nr).map
        (List.count a ∘ fun r => l.filter (fun x => key x == r))) =
        (List.range nr).map (fun r => if key a = r then l.count a else 0) := by
      refine List.map_congr_left ?_
      intro r hr
      simp only [Function.comp]
      by_cases hke : key a = r
      · rw [if_pos hke, List.count_filter (by simpa using hke)]
      · rw [if_neg hke, List.count_eq_zero]
        intro hmem
        rw [List.mem_filter] at hmem
        exact hke (by simpa using hmem.2)
    rw [this, sum_range_single, if_pos (hk a ha)]
  · rw [List.count_eq_zero.mpr ha, List.sum_eq_zero]
    intro x hx
    obtain ⟨r, hr, rfl⟩ := List.mem_map.mp hx
    simp only [Function.comp]
    rw [List.count_eq_zero]
    intro hmem
    exact ha (List.mem_of_mem_filter hmem)

theorem flatten_slice {α : Type} (L : List (List α)) (r : Nat) :
    (L.flatten.drop ((offsetsOf (L.map List.length)).getD r 0)).take
      ((offsetsOf (L.map List.length)).getD (r + 1) 0 -
        (offsetsOf (L.map List.length)).getD r 0) = L.getD r [] := by
  induction L generalizing r with
  | nil =>
    cases r <;> simp [offsetsOf]
  | cons A L ih =>
    cases r with
    | zero =>
      rw [offsetsOf_getD_zero, offsetsOf_getD _ 1 (by simp)]
      simp only [List.take_succ_cons, List.take_zero, List.sum_cons,
        List.sum_nil, List.map_cons, List.drop_zero, List.flatten_cons,
        Nat.sub_zero, Nat.add_zero, List.getD_cons_zero]
      exact List.take_left' rfl
    | succ s =>
      by_cases hs : s + 2 ≤ L.length + 1
      · rw [offsetsOf_getD _ (s + 1)
            (by simp only [List.length_map, List.length_cons]; omega),
          offsetsOf_getD _ (s + 1 + 1)
            (by simp only [List.length_map, List.length_cons]; omega)]
        simp only [List.map_cons, List.take_succ_cons, List.sum_cons,
          List.flatten_cons, List.getD_cons_succ]
        rw [Nat.add_sub_add_left, ← List.drop_drop, List.drop_left,
          ← offsetsOf_getD (L.map List.length) s
            (by simp only [List.length_map]; omega),
          ← offsetsOf_getD (L.map List.length) (s + 1)
            (by simp only [List.length_map]; omega)]
        exact ih s
      · have hr : L.length ≤ s := by omega
        have h2 : (offsetsOf ((A :: L).map List.length)).getD (s + 1 + 1) 0 = 0 := by
          refine List.getD_eq_default _ _ ?_
          rw [length_offsetsOf]
          simp only [List.length_map, List.length_cons]
          omega
        rw [h2, Nat.zero_sub, List.take_zero,
          List.getD_eq_default _ _ (by simp only [List.length_cons]; omega)]

theorem zip_map_same {α β γ : Type} (f : α → β) (g : α → γ) (l : List α) :
    (l.map f).zip (l.map g) = l.map (fun x => (f x, g x)) := by
  induction l with
  | nil => rfl
  | cons a l ih => simp [ih]

theorem csrRowSlice_fromPairs (nr nc : Nat) (prs : List (Nat × Nat × Nat))
    (r : Nat) :
    csrRowSlice (csrFromPairs nr nc prs) r =
      (((bucketBy (fun t => t.1) nr prs).getD r []).map (fun t => t.2.1),
       ((bucketBy (fun t => t.1) nr prs).getD r []).map (fun t => t.2.2)) := by
  have hlen1 : ((bucketBy (fun t => t.1) nr prs).map
      (fun g => g.map (fun t => t.2.1))).map List.length =
      (bucketBy (fun t => t.1) nr prs).map List.length := by
    rw [List.map_map]
    exact List.map_congr_left (fun g _ => by simp)
  have hlen2 : ((bucketBy (fun t => t.1) nr prs).map
      (fun g => g.map (fun t => t.2.2))).map List.length =
      (bucketBy (fun t => t.1) nr prs).map List.length := by
    rw [List.map_map]
    exact List.map_congr_left (fun g _ => by simp)
  have e1 := flatten_slice ((bucketBy (fun t => t.1) nr prs).map
    (fun g => g.map (fun t => t.2.1))) r
  have e2 := flatten_slice ((bucketBy (fun t => t.1) nr prs).map
    (fun g => g.map (fun t => t.2.2))) r
  rw [hlen1] at e1
  rw [hlen2] at e2
  rw [csrRowSlice, csrFromPairs]
  simp only []
  rw [e1, e2]
  by_cases hr : r < (bucketBy (fun t => t.1) nr prs).length
  · rw [getD_map_of_lt _ _ _ _ [] hr, getD_map_of_lt _ _ _ _ [] hr]
  · rw [List.getD_eq_default _ _ (by simpa using Nat.le_of_not_lt hr),
      List.getD_eq_default _ _ (by simpa using Nat.le_of_not_lt hr),
      List.getD_eq_default _ _ (Nat.le_of_not_lt hr)]
    rfl

theorem bucketBy_getD {α : Type} (key : α → Nat) (nr : Nat) (l : List α)
    (r : Nat) (hr : r < nr) :
    (bucketBy key nr l).getD r [] = l.filter (fun x => key x == r) := by
  rw [bucketBy, getD_map_of_lt _ _ _ _ 0 (by simpa using hr),
    List.getD_eq_getElem _ 0 (by simpa using hr), List.getElem_range]

theorem csrTriples_fromPairs (nr nc : Nat) (prs : List (Nat × Nat × Nat))
    (hk : ∀ p ∈ prs, p.1 < nr) :
    List.Perm (csrTriples (csrFromPairs nr nc prs)) prs := by
  have hnum : (csrFromPairs nr nc prs).numRows = nr := rfl
  have hb : csrTriples (csrFromPairs nr nc prs) =
      (bucketBy (fun t => t.1) nr prs).flatten := by
    rw [csrTriples, hnum, bucketBy]
    refine congrArg List.flatten (List.map_congr_left ?_)
    intro r hr
    have hrn : r < nr := List.mem_range.mp hr
    rw [csrRowSlice_fromPairs nr nc prs r, zip_map_same, List.map_map,
      bucketBy_getD _ nr prs r hrn]
    have hfun : ∀ t ∈ prs.filter (fun x => x.1 == r),
        ((fun p => (r, p.1, p.2)) ∘ fun x => (x.2.1, x.2.2)) t =
          (fun a => a) t := by
      intro t htm
      have ht1 : t.1 = r := by simpa using (List.mem_filter.mp htm).2
      simp only [Function.comp]
      rw [← ht1]
    rw [List.map_congr_left hfun, List.map_id']
  rw [hb]
  exact bucketBy_flatten_perm _ nr prs hk

theorem swap3_swap3 (t : Nat × Nat × Nat) : swap3 (swap3 t) = t := rfl

theorem map_swap3_swap3 (T : List (Nat × Nat × Nat)) :
    (T.map swap3).map swap3 = T := by
  rw [List.map_map]
  refine Eq.trans (List.map_congr_left ?_) (List.map_id' T)
  intro t _
  exact swap3_swap3 t

theorem mem_map_swap3 {x : Nat × Nat × Nat} {T : List (Nat × Nat × Nat)} :
    x ∈ T.map swap3 ↔ swap3 x ∈ T := by
  constructor
  · rintro hm
    obtain ⟨t, ht, rfl⟩ := List.mem_map.mp hm
    rw [swap3_swap3]
    exact ht
  · intro hm
    have := List.mem_map_of_mem swap3 hm
    rwa [swap3_swap3] at this

theorem csrTriples_row_lt {c : CSRm} {t : Nat × Nat × Nat}
    (h : t ∈ csrTriples c) : t.1 < c.numRows := by
  rw [csrTriples, List.mem_flatten] at h
  obtain ⟨l, hl, hom⟩ := h
  obtain ⟨r, hr, rfl⟩ := List.mem_map.mp hl
  obtain ⟨p, _, rfl⟩ := List.mem_map.mp hom
  exact List.mem_range.mp hr

theorem csrTriples_col_mem {c : CSRm} {t : Nat × Nat × Nat}
    (h : t ∈ csrTriples c) : t.2.1 ∈ c.indices := by
  rw [csrTriples, List.mem_flatten] at h
  obtain ⟨l, hl, hom⟩ := h
  obtain ⟨r, _, rfl⟩ := List.mem_map.mp hl
  obtain ⟨p, hp, rfl⟩ := List.mem_map.mp hom
  have h1 : p.1 ∈ (csrRowSlice c r).1 := (List.of_mem_zip hp).1
  rw [csrRowSlice] at h1
  exact List.mem_of_mem_drop (List.mem_of_mem_take h1)

theorem fromPairs_CSRWF (nr nc : Nat) (prs : List (Nat × Nat × Nat)) :
    CSRWF (csrFromPairs nr nc prs) := by
  constructor
  · show (offsetsOf _).length = nr + 1
    rw [length_offsetsOf]
    simp [bucketBy]
  · show (List.flatten _).length = (List.flatten _).length
    rw [List.length_flatten, List.length_flatten, List.map_map, List.map_map]
    refine congrArg List.sum (List.map_congr_left ?_)
    intro g _
    simp [Function.comp]

theorem fromPairs_indices_lt (nr nc : Nat) (prs : List (Nat × Nat × Nat))
    (hc : ∀ p ∈ prs, p.2.1 < nc) :
    ∀ v ∈ (csrFromPairs nr nc prs).indices, v < nc := by
  intro v hv
  have : v ∈ (((bucketBy (fun t => t.1) nr prs).map
      (fun g => g.map (fun t => t.2.1)))).flatten := hv
  rw [List.mem_flatten] at this
  obtain ⟨l, hl, hvl⟩ := this
  obtain ⟨g, hg, rfl⟩ := List.mem_map.mp hl
  obtain ⟨p, hp, rfl⟩ := List.mem_map.mp hvl
  obtain ⟨r, _, rfl⟩ := List.mem_map.mp hg
  exact hc p (List.mem_of_mem_filter hp)

theorem cooTriples_row_mem {c : COOm} {t : Nat × Nat × Nat}
    (h : t ∈ cooTriples c) : t.1 ∈ c.row := by
  rw [cooTriples] at h
  obtain ⟨i, hi, rfl⟩ := List.mem_map.mp h
  have hil := List.mem_range.mp hi
  rw [List.getD_eq_getElem _ 0 hil]
  exact List.getElem_mem hil

theorem cooTriples_col_mem {c : COOm} {t : Nat × Nat × Nat}
    (hlen : c.col.length = c.row.length) (h : t ∈ cooTriples c) :
    t.2.1 ∈ c.col := by
  rw [cooTriples] at h
  obtain ⟨i, hi, rfl⟩ := List.mem_map.mp h
  have hil : i < c.col.length := by rw [hlen]; exact List.mem_range.mp hi
  rw [List.getD_eq_getElem _ 0 hil]
  exact List.getElem_mem hil

/-- Modelled-kernel correctness: `cooToCSR` of a well-formed COO view is
a well-formed CSR of the same edge triples. -/
theorem cooToCSR_ok {ns nd : Nat} {T : List (Nat × Nat × Nat)} {c : COOm}
    (h : COOok ns nd T c) : CSRok ns nd T (cooToCSR c) := by
  obtain ⟨hr, hc, hl, hrow, hcol, hperm⟩ := h
  subst hr
  subst hc
  refine ⟨rfl, rfl, ?_, ?_, ?_⟩
  · exact fromPairs_CSRWF _ _ _
  · exact fromPairs_indices_lt _ _ _
      (fun p hp => hcol _ (cooTriples_col_mem hl hp))
  · exact (csrTriples_fromPairs _ _ _
      (fun p hp => hrow _ (cooTriples_row_mem hp))).trans hperm

/-- Modelled-kernel correctness: transposition of a well-formed CSR view
swaps the represented edge endpoints. -/
theorem csrTranspose_ok {nr nc : Nat} {T : List (Nat × Nat × Nat)}
    {c : CSRm} (h : CSRok nr nc T c) :
    CSRok nc nr (T.map swap3) (csrTranspose c) := by
  obtain ⟨hr, hc, hwf, hind, hperm⟩ := h
  subst hr
  subst hc
  refine ⟨rfl, rfl, ?_, ?_, ?_⟩
  · exact fromPairs_CSRWF _ _ _
  · exact fromPairs_indices_lt _ _ _ (by
      intro p hp
      obtain ⟨t, ht, rfl⟩ := List.mem_map.mp hp
      exact csrTriples_row_lt ht)
  · exact (csrTriples_fromPairs _ _ _ (by
      intro p hp
      obtain ⟨t, ht, rfl⟩ := List.mem_map.mp hp
      exact hind _ (csrTriples_col_mem ht))).trans (hperm.map swap3)

theorem exists_zip_of_mem {α β : Type} :
    ∀ (l1 : List α) (l2 : List β), l1.length = l2.length →
      ∀ a ∈ l1, ∃ b, (a, b) ∈ l1.zip l2 := by
  intro l1
  induction l1 with
  | nil => intro l2 _ a ha; simp at ha
  | cons x l1 ih =>
    intro l2 hlen a ha
    cases l2 with
    | nil => simp at hlen
    | cons y l2 =>
      rcases List.mem_cons.mp ha with rfl | ha1
      · exact ⟨y, by simp⟩
      · obtain ⟨b, hb⟩ := ih l2 (by simpa using hlen) a ha1
        exact ⟨b, List.mem_cons_of_mem _ hb⟩

theorem csrIsNonZero_iff {c : CSRm} (hwf : CSRWF c) (r v : Nat) :
    (csrIsNonZero c r v = true ↔ ∃ e, (r, v, e) ∈ csrTriples c) := by
  obtain ⟨hlen, hdat⟩ := hwf
  have hslice : ((csrRowSlice c r).1).length = ((csrRowSlice c r).2).length := by
    rw [csrRowSlice]
    simp only [List.length_take, List.length_drop]
    rw [hdat]
  constructor
  · intro hcon
    have hv : v ∈ (csrRowSlice c r).1 := by
      have : ((csrRowSlice c r).1.elem v) = true := hcon
      exact List.elem_iff.mp this
    have hr : r < c.numRows := by
      by_contra hge
      have hhi : c.indptr.getD (r + 1) 0 = 0 := by
        refine List.getD_eq_default _ _ ?_
        rw [hlen]
        omega
      rw [csrRowSlice, hhi] at hv
      simp [Nat.zero_sub] at hv
    obtain ⟨e, he⟩ := exists_zip_of_mem _ _ hslice v hv
    refine ⟨e, ?_⟩
    rw [csrTriples, List.mem_flatten]
    refine ⟨_, List.mem_map.mpr ⟨r, List.mem_range.mpr hr, rfl⟩, ?_⟩
    exact List.mem_map_of_mem _ he
  · rintro ⟨e, he⟩
    rw [csrTriples, List.mem_flatten] at he
    obtain ⟨l, hl, hm⟩ := he
    obtain ⟨r2, _, rfl⟩ := List.mem_map.mp hl
    obtain ⟨p, hp, heq⟩ := List.mem_map.mp hm
    have hr2 : r2 = r := congrArg (fun q => q.1) heq
    have hp1 : p.1 = v := congrArg (fun q => q.2.1) heq
    subst hr2
    show ((csrRowSlice c r2).1.elem v) = true
    refine List.elem_iff.mpr ?_
    rw [← hp1]
    exact (List.of_mem_zip hp).1

theorem cooTriples_swap (co : COOm) (hl : co.col.length = co.row.length) :
    cooTriples { numRows := co.numCols, numCols := co.numRows,
                 row := co.col, col := co.row } =
      (cooTriples co).map swap3 := by
  rw [cooTriples, cooTriples, List.map_map]
  simp only []
  rw [hl]
  exact List.map_congr_left (fun i _ => rfl)

theorem getOutCSR_ok {ns nd : Nat} {E : List (Nat × Nat × Nat)} {b : Bip}
    (h : BipWF ns nd E b) :
    CSRok ns nd E (getOutCSR b).1 ∧ BipWF ns nd E (getOutCSR b).2 ∧
      (getOutCSR b).2.outCsr = some (getOutCSR b).1 := by
  rcases hoc : b.outCsr with _ | oc
  · rcases hic : b.inCsr with _ | ic
    · rcases hco : b.coo with _ | co
      · exfalso
        rcases h.some_view with h1 | h1 | h1 <;> simp_all
      · have hok := cooToCSR_ok (h.coo_ok co hco)
        have hget : getOutCSR b =
            (cooToCSR co, { b with outCsr := some (cooToCSR co) }) := by
          simp [getOutCSR, hoc, hic, hco]
        rw [hget]
        refine ⟨hok, ⟨?_, ?_, ?_, ?_⟩, rfl⟩
        · exact Or.inr (Or.inl (by simp))
        · intro c' hc'
          exact h.in_ok c' hc'
        · intro c' hc'
          have : cooToCSR co = c' := by
            simpa using hc'
          rw [← this]
          exact hok
        · intro c' hc'
          exact h.coo_ok c' hc'
    · have hok0 := csrTranspose_ok (h.in_ok ic hic)
      rw [map_swap3_swap3] at hok0
      have hget : getOutCSR b =
          (csrTranspose ic, { b with outCsr := some (csrTranspose ic) }) := by
        simp [getOutCSR, hoc, hic]
      rw [hget]
      refine ⟨hok0, ⟨?_, ?_, ?_, ?_⟩, rfl⟩
      · exact Or.inr (Or.inl (by simp))
      · intro c' hc'
        exact h.in_ok c' hc'
      · intro c' hc'
        have : csrTranspose ic = c' := by simpa using hc'
        rw [← this]
        exact hok0
      · intro c' hc'
        exact h.coo_ok c' hc'
  · have hget : getOutCSR b = (oc, b) := by
      simp [getOutCSR, hoc]
    rw [hget]
    exact ⟨h.out_ok oc hoc, h, hoc⟩

theorem getInCSR_ok {ns nd : Nat} {E : List (Nat × Nat × Nat)} {b : Bip}
    (h : BipWF ns nd E b) :
    CSRok nd ns (E.map swap3) (getInCSR b).1 ∧ BipWF ns nd E (getInCSR b).2 ∧
      (getInCSR b).2.inCsr = some (getInCSR b).1 := by
  rcases hic : b.inCsr with _ | ic
  · rcases hoc : b.outCsr with _ | oc
    · rcases hco : b.coo with _ | co
      · exfalso
        rcases h.some_view with h1 | h1 | h1 <;> simp_all
      · have hcoo := h.coo_ok co hco
        obtain ⟨hr, hc, hl, hrow, hcol, hperm⟩ := hcoo
        have hswap : COOok nd ns (E.map swap3)
            { numRows := co.numCols, numCols := co.numRows,
              row := co.col, col := co.row } := by
          refine ⟨hc, hr, ?_, ?_, ?_, ?_⟩
          · exact hl.symm
          · intro v hv
            exact hcol v hv
          · intro v hv
            exact hrow v hv
          · rw [cooTriples_swap co hl]
            exact hperm.map swap3
        have hok := cooToCSR_ok hswap
        have hget : getInCSR b =
            (cooToCSR
              { numRows := co.numCols, numCols := co.numRows,
                row := co.col, col := co.row },
             { inCsr := some (cooToCSR
                { numRows := co.numCols, numCols := co.numRows,
                  row := co.col, col := co.row }),
               outCsr := b.outCsr, coo := b.coo }) := by
          simp [getInCSR, hic, hoc, hco]
        rw [hget]
        refine ⟨hok, ⟨?_, ?_, ?_, ?_⟩, rfl⟩
        · exact Or.inl (by simp)
        · intro c' hc'
          have heqc : cooToCSR
              { numRows := co.numCols, numCols := co.numRows,
                row := co.col, col := co.row } = c' := by
            simpa using hc'
          rw [← heqc]
          exact hok
        · intro c' hc'
          exact h.out_ok c' hc'
        · intro c' hc'
          exact h.coo_ok c' hc'
    · have hok0 := csrTranspose_ok (h.out_ok oc hoc)
      have hget : getInCSR b =
          (csrTranspose oc, { b with inCsr := some (csrTranspose oc) }) := by
        simp [getInCSR, hic, hoc]
      rw [hget]
      refine ⟨hok0, ⟨?_, ?_, ?_, ?_⟩, rfl⟩
      · exact Or.inl (by simp)
      · intro c' hc'
        have : csrTranspose oc = c' := by simpa using hc'
        rw [← this]
        exact hok0
      · intro c' hc'
        exact h.out_ok c' hc'
      · intro c' hc'
        exact h.coo_ok c' hc'
  · have hget : getInCSR b = (ic, b) := by
      simp [getInCSR, hic]
    rw [hget]
    exact ⟨h.in_ok ic hic, h, hic⟩

/-- C7: `get_adj(fmt="csr", transpose=false)` returns the in-CSR triple
`(indptr, indices, data)` — a well-formed CSR whose triples are the edge
set with endpoints swapped (rows are destinations) — materializing and
memoizing that view if absent; `transpose=true` symmetrically returns the
out-CSR triple (rows are sources). -/
theorem c7_get_adj_csr_transpose_flip (ns nd : Nat)
    (E : List (Nat × Nat × Nat)) (b : Bip) (h : BipWF ns nd E b) :
    ((getAdj b false "csr").1 =
        some [(getInCSR b).1.indptr, (getInCSR b).1.indices,
          (getInCSR b).1.data] ∧
      (getAdj b false "csr").2 = (getInCSR b).2 ∧
      (getInCSR b).2.inCsr = some (getInCSR b).1 ∧
      CSRok nd ns (E.map swap3) (getInCSR b).1) ∧
    ((getAdj b true "csr").1 =
        some [(getOutCSR b).1.indptr, (getOutCSR b).1.indices,
          (getOutCSR b).1.data] ∧
      (getAdj b true "csr").2 = (getOutCSR b).2 ∧
      (getOutCSR b).2.outCsr = some (getOutCSR b).1 ∧
      CSRok ns nd E (getOutCSR b).1) := by
  obtain ⟨hin1, hin2, hin3⟩ := getInCSR_ok h
  obtain ⟨hout1, hout2, hout3⟩ := getOutCSR_ok h
  exact ⟨⟨rfl, rfl, hin3, hin1⟩, ⟨rfl, rfl, hout3, hout1⟩⟩

theorem c7_get_adj_csr_transpose_flip_witness :
    BipWF 3 4 [(0, 1, 0), (0, 2, 1), (1, 0, 2), (2, 3, 3)]
      (createFromCOO 3 4 [0, 0, 1, 2] [1, 2, 0, 3]) ∧
    (getAdj (createFromCOO 3 4 [0, 0, 1, 2] [1, 2, 0, 3]) false "csr").1 =
      some [(getInCSR (createFromCOO 3 4 [0, 0, 1, 2] [1, 2, 0, 3])).1.indptr,
        (getInCSR (createFromCOO 3 4 [0, 0, 1, 2] [1, 2, 0, 3])).1.indices,
        (getInCSR (createFromCOO 3 4 [0, 0, 1, 2] [1, 2, 0, 3])).1.data] := by
  have hwf : BipWF 3 4 [(0, 1, 0), (0, 2, 1), (1, 0, 2), (2, 3, 3)]
      (createFromCOO 3 4 [0, 0, 1, 2] [1, 2, 0, 3]) := by
    refine ⟨Or.inr (Or.inr (by simp [createFromCOO])), ?_, ?_, ?_⟩
    · intro c hc
      exact absurd hc (by simp [createFromCOO])
    · intro c hc
      exact absurd hc (by simp [createFromCOO])
    · intro c hc
      have hvc : ({ numRows := 3, numCols := 4, row := [0, 0, 1, 2], col := [1, 2, 0, 3] } : COOm) = c := by
        simpa [createFromCOO] using hc
      rw [← hvc]
      exact ⟨rfl, rfl, rfl, by decide, by decide, by decide⟩
  exact ⟨hwf, (c7_get_adj_csr_transpose_flip 3 4 _ _ hwf).1.1⟩

/-- C6 counterexample: on a graph built from CSR whose in-CSR has been
materialized (both CSR views present), `HasEdgeBetween` consults the
in-CSR — not the out-CSR — even though the out-CSR is present and could
serve the query; the claimed out-CSR-first preference is wrong. -/
theorem c6_counterexample_prefers_in_csr :
    ((getInCSR (createFromCSR 2 2 [0, 1, 2] [1, 0] [0, 1])).2).outCsr.isSome =
      true ∧
    (hasEdgeBetween
        ((getInCSR (createFromCSR 2 2 [0, 1, 2] [1, 0] [0, 1])).2) 0 1).2.2 =
      ViewTag.inV ∧
    ViewTag.inV ≠ ViewTag.outV := by
  refine ⟨by decide, by decide, by decide⟩

/-- C6 amended: `has_edge_between` / `has_edges_between` answer from the
in-CSR view (with src/dst swapped) whenever it is present — regardless of
the out-CSR — and only otherwise materialize and consult the out-CSR; in
all cases the boolean answer is exact edge existence, and the vectorized
form is the pointwise scalar query. -/
theorem c6_amended_has_edge_between_in_csr_first (ns nd : Nat)
    (E : List (Nat × Nat × Nat)) (b : Bip) (src dst : Nat)
    (srcs dsts : List Nat) (h : BipWF ns nd E b) :
    ((hasEdgeBetween b src dst).1 = true ↔ ∃ e, (src, dst, e) ∈ E) ∧
    (∀ ic, b.inCsr = some ic →
      (hasEdgeBetween b src dst).2.2 = ViewTag.inV ∧
      (hasEdgeBetween b src dst).2.1 = b ∧
      (hasEdgeBetween b src dst).1 = csrIsNonZero ic dst src) ∧
    (b.inCsr = none →
      (hasEdgeBetween b src dst).2.2 = ViewTag.outV ∧
      (hasEdgeBetween b src dst).1 =
        csrIsNonZero (getOutCSR b).1 src dst) ∧
    ((hasEdgesBetween b srcs dsts).1 =
      (srcs.zip dsts).map (fun p => (hasEdgeBetween b p.1 p.2).1)) := by
  rcases hic : b.inCsr with _ | ic
  · obtain ⟨hok, _, _⟩ := getOutCSR_ok h
    obtain ⟨_, _, hwf, _, hperm⟩ := hok
    have hget1 : hasEdgeBetween b src dst =
        (csrIsNonZero (getOutCSR b).1 src dst, (getOutCSR b).2,
          ViewTag.outV) := by
      rw [hasEdgeBetween, hic]
    refine ⟨?_, ?_, ?_, ?_⟩
    · rw [hget1]
      rw [csrIsNonZero_iff hwf src dst]
      constructor
      · rintro ⟨e, he⟩
        exact ⟨e, hperm.mem_iff.mp he⟩
      · rintro ⟨e, he⟩
        exact ⟨e, hperm.mem_iff.mpr he⟩
    · intro ic hic2
      exact absurd hic2 (by simp)
    · intro _
      rw [hget1]
      exact ⟨rfl, rfl⟩
    · rw [hasEdgesBetween, hic]
      simp only []
      refine (List.map_congr_left ?_).symm
      intro p _
      rw [hasEdgeBetween, hic]
  · have hok := h.in_ok ic hic
    obtain ⟨_, _, hwf, _, hperm⟩ := hok
    have hget1 : hasEdgeBetween b src dst =
        (csrIsNonZero ic dst src, b, ViewTag.inV) := by
      rw [hasEdgeBetween, hic]
    refine ⟨?_, ?_, ?_, ?_⟩
    · rw [hget1]
      rw [csrIsNonZero_iff hwf dst src]
      constructor
      · rintro ⟨e, he⟩
        refine ⟨e, ?_⟩
        have := hperm.mem_iff.mp he
        exact mem_map_swap3.mp this
      · rintro ⟨e, he⟩
        refine ⟨e, hperm.mem_iff.mpr (mem_map_swap3.mpr he)⟩
    · intro ic2 hic2
      have hicq : ic = ic2 := by simpa using hic2
      subst hicq
      rw [hget1]
      exact ⟨rfl, rfl, rfl⟩
    · intro hnone
      exact absurd hnone (by simp)
    · rw [hasEdgesBetween, hic]
      simp only []
      refine (List.map_congr_left ?_).symm
      intro p _
      rw [hasEdgeBetween, hic]

theorem c6_amended_has_edge_between_witness :
    BipWF 3 4 [(0, 1, 0), (0, 2, 1), (1, 0, 2), (2, 3, 3)]
      (createFromCOO 3 4 [0, 0, 1, 2] [1, 2, 0, 3]) ∧
    ((hasEdgeBetween (createFromCOO 3 4 [0, 0, 1, 2] [1, 2, 0, 3]) 0 1).1 =
        true ↔ ∃ e, ((0 : Nat), (1 : Nat), e) ∈
          [((0 : Nat), (1 : Nat), (0 : Nat)), (0, 2, 1), (1, 0, 2),
            (2, 3, 3)]) := by
  have hwf : BipWF 3 4 [(0, 1, 0), (0, 2, 1), (1, 0, 2), (2, 3, 3)]
      (createFromCOO 3 4 [0, 0, 1, 2] [1, 2, 0, 3]) := by
    refine ⟨Or.inr (Or.inr (by simp [createFromCOO])), ?_, ?_, ?_⟩
    · intro c hc
      exact absurd hc (by simp [createFromCOO])
    · intro c hc
      exact absurd hc (by simp [createFromCOO])
    · intro c hc
      have hvc : ({ numRows := 3, numCols := 4, row := [0, 0, 1, 2], col := [1, 2, 0, 3] } : COOm) = c := by
        simpa [createFromCOO] using hc
      rw [← hvc]
      exact ⟨rfl, rfl, rfl, by decide, by decide, by decide⟩
  exact ⟨hwf, (c6_amended_has_edge_between_in_csr_first 3 4 _ _ 0 1 [] []
    hwf).1⟩

theorem getLast?_map {α β : Type} (f : α → β) (l : List α) :
    (l.map f).getLast? = l.getLast?.map f := by
  rw [← List.head?_reverse, ← List.map_reverse, ← List.head?_reverse]
  cases l.reverse with
  | nil => rfl
  | cons a t => rfl

theorem sorted_le_replicate (n : Nat) :
    (List.replicate n 0).Sorted (· ≤ ·) := by
  rw [List.Sorted, List.pairwise_replicate]
  exact Or.inr le_rfl

theorem sorted_indptr (z : Nat) (counts : List Nat) :
    (List.replicate (z + 1) 0 ++ (offsetsOf counts).drop 1).Sorted
      (· ≤ ·) := by
  rw [List.Sorted, List.pairwise_append]
  refine ⟨sorted_le_replicate (z + 1),
    List.Pairwise.drop (sorted_offsetsOf counts), ?_⟩
  intro a ha b _
  rw [List.eq_of_mem_replicate ha]
  exact Nat.zero_le b

theorem getLast?_offsetsOf_drop (counts : List Nat) (h : counts ≠ []) :
    ((offsetsOf counts).drop 1).getLast? = some counts.sum := by
  cases counts with
  | nil => exact absurd rfl h
  | cons c cs =>
    rw [offsetsOf]
    simp only [List.drop_succ_cons, List.drop_zero]
    rw [getLast?_map, getLast?_offsetsOf]
    simp

theorem indptr_getLast (z : Nat) (counts : List Nat) :
    (List.replicate (z + 1) 0 ++ (offsetsOf counts).drop 1).getLast? =
      some counts.sum := by
  cases hc : counts with
  | nil =>
    simp only [offsetsOf, List.drop_succ_cons, List.drop_zero,
      List.append_nil, List.sum_nil]
    rw [List.replicate_succ', List.getLast?_concat]
  | cons c cs =>
    rw [List.getLast?_append_of_ne_nil, getLast?_offsetsOf_drop _ (by simp)]
    intro habs
    have := congrArg List.length habs
    rw [List.length_drop, length_offsetsOf] at this
    simp at this

theorem indptr_length (z : Nat) (counts : List Nat) :
    (List.replicate (z + 1) 0 ++ (offsetsOf counts).drop 1).length =
      z + 1 + counts.length := by
  rw [List.length_append, List.length_replicate, List.length_drop,
    length_offsetsOf]
  omega

theorem getD_of_getLast? {l : List Nat} {a : Nat}
    (h : l.getLast? = some a) : l.getD (l.length - 1) 0 = a := by
  cases l with
  | nil => simp at h
  | cons x xs =>
    rw [List.getLast?_eq_getLast _ (by simp)] at h
    have hlt : (x :: xs).length - 1 < (x :: xs).length := by simp
    rw [List.getD_eq_getElem _ 0 hlt]
    rw [List.getLast_eq_getElem] at h
    simpa using h

theorem orderedRecsOf_length (recs : List (List RecT)) :
    (orderedRecsOf recs).length = (recs.map List.length).sum := by
  cases recs with
  | nil => simp [orderedRecsOf]
  | cons r0 rest =>
    rw [orderedRecsOf]
    rw [List.length_append, List.length_flatten, List.length_map,
      ← List.map_reverse, List.map_map, List.map_map]
    have hfix : ((List.length ∘ fun p : Nat × List RecT =>
        p.2.map (fun r => (p.1, r))) ∘ fun p : Nat × List RecT =>
        (p.1 + 1, sortRecs p.2)) = fun p : Nat × List RecT => p.2.length := by
      funext p
      simp only [Function.comp, List.length_map]
      exact List.length_insertionSort _ p.2
    rw [hfix, List.map_reverse, List.sum_reverse]
    have h2 : rest.enum.map (fun p : Nat × List RecT => p.2.length) =
        rest.map List.length := by
      have he : rest.enum.map (fun p : Nat × List RecT => p.2.length) =
          (rest.enum.map Prod.snd).map List.length := by
        rw [List.map_map]
        rfl
      have hsnd : rest.enum.map Prod.snd = rest := List.enumFrom_map_snd 0 rest
      rw [he, hsnd]
    rw [h2, List.map_cons, List.sum_cons]
    omega

theorem orderedRecsOf_mem {recs : List (List RecT)} {p : Nat × RecT}
    (hp : p ∈ orderedRecsOf recs) : ∃ R ∈ recs, p.2 ∈ R := by
  cases recs with
  | nil => simp [orderedRecsOf] at hp
  | cons r0 rest =>
    rw [orderedRecsOf, List.mem_append] at hp
    rcases hp with hp | hp
    · rw [List.mem_flatten] at hp
      obtain ⟨l, hl, hpl⟩ := hp
      rw [List.mem_map] at hl
      obtain ⟨q, hq, rfl⟩ := hl
      rw [List.mem_reverse, List.mem_map] at hq
      obtain ⟨w, hw, rfl⟩ := hq
      simp only [List.mem_map] at hpl
      obtain ⟨r, hr, rfl⟩ := hpl
      refine ⟨w.2, ?_, ?_⟩
      · refine List.mem_cons_of_mem r0 ?_
        have hmem : w.2 ∈ rest.enum.map Prod.snd :=
          List.mem_map_of_mem Prod.snd hw
        have hsnd : rest.enum.map Prod.snd = rest :=
          List.enumFrom_map_snd 0 rest
        rwa [hsnd] at hmem
      · exact List.mem_insertionSort _ |>.mp hr
    · simp only [List.mem_map] at hp
      obtain ⟨r, hr, rfl⟩ := hp
      exact ⟨r0, List.mem_cons_self r0 rest, hr⟩

theorem snd_mem_of_mem_enum {α : Type} {p : Nat × α} {l : List α}
    (hp : p ∈ l.enum) : p.2 ∈ l := by
  have hmem : p.2 ∈ l.enum.map Prod.snd := List.mem_map_of_mem Prod.snd hp
  have hsnd : l.enum.map Prod.snd = l := List.enumFrom_map_snd 0 l
  rwa [hsnd] at hmem

theorem neighSlice_len {g : SrcCSR} (hwf : g.eids.length = g.indices.length)
    (d : Nat) : (neighSlice g d).1.length = (neighSlice g d).2.length := by
  simp [neighSlice, hwf]

theorem neighSlice_mem {g : SrcCSR} {d v : Nat}
    (hv : v ∈ (neighSlice g d).1) : v ∈ g.indices := by
  simp only [neighSlice] at hv
  exact List.mem_of_mem_drop (List.mem_of_mem_take hv)

theorem addSelfLoop_len {dstId : Nat} {eidS : List Int} {vidS sv : List Nat}
    {se : List Int} (h : sv.length = se.length) :
    (addSelfLoop dstId eidS vidS sv se).1.length =
      (addSelfLoop dstId eidS vidS sv se).2.length := by
  rw [addSelfLoop]
  split_ifs with hmem
  · exact h
  · cases hfi : vidS.findIdx? (fun v => v == dstId) <;> simp [h]

theorem addSelfLoop_mem {dstId : Nat} {eidS : List Int} {vidS sv : List Nat}
    {se : List Int} {v : Nat}
    (hv : v ∈ (addSelfLoop dstId eidS vidS sv se).1) :
    v ∈ sv ∨ v = dstId := by
  rw [addSelfLoop] at hv
  by_cases hmem : dstId ∈ sv
  · rw [if_pos hmem] at hv
    exact Or.inl hv
  · rw [if_neg hmem] at hv
    cases hfi : vidS.findIdx? (fun w => w == dstId) with
    | none =>
      rw [hfi] at hv
      simp only [List.mem_append, List.mem_singleton] at hv
      exact hv
    | some i =>
      rw [hfi] at hv
      simp only [List.mem_append, List.mem_singleton] at hv
      exact hv

theorem sampleNeighbors_len {f : SamplerFun} (hf : SamplerOK f) {g : SrcCSR}
    (hwf : g.eids.length = g.indices.length) (slp : Bool) (k step dst : Nat) :
    (sampleNeighbors f g slp k step dst).1.length =
      (sampleNeighbors f g slp k step dst).2.length := by
  have hsl : (neighSlice g dst).1.length = (neighSlice g dst).2.length :=
    neighSlice_len hwf dst
  have h1 := (hf step (neighSlice g dst).2 (neighSlice g dst).1 k hsl).1
  simp only [sampleNeighbors]
  cases slp with
  | false => simpa using h1
  | true => simpa using addSelfLoop_len h1

theorem sampleNeighbors_mem {f : SamplerFun} (hf : SamplerOK f) {g : SrcCSR}
    (hwf : SrcWF g) (slp : Bool) (k step dst : Nat) (hdst : dst < g.numV) :
    ∀ v ∈ (sampleNeighbors f g slp k step dst).1, v < g.numV := by
  intro v hv
  have hsl : (neighSlice g dst).1.length = (neighSlice g dst).2.length :=
    neighSlice_len hwf.2 dst
  have h2 := (hf step (neighSlice g dst).2 (neighSlice g dst).1 k hsl).2
  have hn : ∀ w, w ∈ (f step (neighSlice g dst).2 (neighSlice g dst).1 k).1 →
      w < g.numV := by
    intro w hw
    exact hwf.1 w (neighSlice_mem (h2 w hw))
  simp only [sampleNeighbors] at hv
  cases slp with
  | false =>
    rw [if_neg Bool.false_ne_true] at hv
    exact hn v hv
  | true =>
    rw [if_pos rfl] at hv
    rcases addSelfLoop_mem hv with hin | rfl
    · exact hn v hin
    · exact hdst

theorem processLayer_recs_length (f : SamplerFun) (g : SrcCSR) (slp : Bool)
    (k step0 : Nat) (prev : List Nat) :
    (processLayer f g slp k step0 prev).1.length = prev.length := by
  simp [processLayer]

theorem processLayer_rec_len {f : SamplerFun} (hf : SamplerOK f) {g : SrcCSR}
    (hwf : g.eids.length = g.indices.length) (slp : Bool) (k step0 : Nat)
    (prev : List Nat) :
    ∀ r ∈ (processLayer f g slp k step0 prev).1,
      r.2.1.length = r.2.2.length := by
  intro r hr
  simp only [processLayer, List.mem_map] at hr
  obtain ⟨p, hp, rfl⟩ := hr
  exact sampleNeighbors_len hf hwf slp k (step0 + p.1) p.2

theorem processLayer_rec_valid {f : SamplerFun} (hf : SamplerOK f)
    {g : SrcCSR} (hwf : SrcWF g) (slp : Bool) (k step0 : Nat)
    (prev : List Nat) (hprev : ∀ v ∈ prev, v < g.numV) :
    ∀ r ∈ (processLayer f g slp k step0 prev).1,
      ∀ v ∈ r.2.1, v < g.numV := by
  intro r hr v hv
  simp only [processLayer, List.mem_map] at hr
  obtain ⟨p, hp, rfl⟩ := hr
  exact sampleNeighbors_mem hf hwf slp k (step0 + p.1) p.2
    (hprev p.2 (snd_mem_of_mem_enum hp)) v hv

theorem processLayer_next_valid {f : SamplerFun} (hf : SamplerOK f)
    {g : SrcCSR} (hwf : SrcWF g) (slp : Bool) (k step0 : Nat)
    (prev : List Nat) (hprev : ∀ v ∈ prev, v < g.numV) :
    ∀ v ∈ (processLayer f g slp k step0 prev).2, v < g.numV := by
  intro v hv
  simp only [processLayer] at hv
  rw [mem_firstSeen] at hv
  rw [List.mem_flatten] at hv
  obtain ⟨l, hl, hvl⟩ := hv
  rw [List.mem_map] at hl
  obtain ⟨r, hr, rfl⟩ := hl
  exact processLayer_rec_valid hf hwf slp k step0 prev hprev r
    (by simpa [processLayer] using hr) v hvl

theorem sampleLoop_layers_ne_nil (f : SamplerFun) (g : SrcCSR) (slp : Bool)
    (k : Nat) : ∀ n step0 cur,
    (sampleLoop f g slp k n step0 cur).1 ≠ []
  | 0, _, _ => by simp [sampleLoop]
  | n + 1, step0, cur => by simp [sampleLoop]

theorem sampleLoop_lens (f : SamplerFun) (g : SrcCSR) (slp : Bool)
    (k : Nat) : ∀ n step0 cur,
    (sampleLoop f g slp k n step0 cur).2.map List.length =
      ((sampleLoop f g slp k n step0 cur).1.dropLast).map List.length := by
  intro n
  induction n with
  | zero => intro step0 cur; simp [sampleLoop]
  | succ m ih =>
    intro step0 cur
    have hne := sampleLoop_layers_ne_nil f g slp k m (step0 + cur.length)
      (processLayer f g slp k step0 cur).2
    rw [sampleLoop]
    simp only []
    rw [List.map_cons, ih (step0 + cur.length)
      (processLayer f g slp k step0 cur).2]
    cases hrest : (sampleLoop f g slp k m (step0 + cur.length)
        (processLayer f g slp k step0 cur).2).1 with
    | nil => exact absurd hrest hne
    | cons b t =>
      show processLayer f g slp k step0 cur |>.1.length ::
          ((b :: t).dropLast).map List.length =
        ((cur :: b :: t).dropLast).map List.length
      rw [show (cur :: b :: t).dropLast = cur :: (b :: t).dropLast from rfl,
        List.map_cons, processLayer_recs_length]

theorem sampleLoop_rec_len {f : SamplerFun} (hf : SamplerOK f) {g : SrcCSR}
    (hwf : g.eids.length = g.indices.length) (slp : Bool) (k : Nat) :
    ∀ n step0 cur, ∀ R ∈ (sampleLoop f g slp k n step0 cur).2,
      ∀ r ∈ R, r.2.1.length = r.2.2.length := by
  intro n
  induction n with
  | zero => intro step0 cur R hR; simp [sampleLoop] at hR
  | succ m ih =>
    intro step0 cur R hR
    rw [sampleLoop] at hR
    simp only [] at hR
    rw [List.mem_cons] at hR
    rcases hR with rfl | hR
    · exact processLayer_rec_len hf hwf slp k step0 cur
    · exact ih (step0 + cur.length) (processLayer f g slp k step0 cur).2 R hR

theorem sampleLoop_valid {f : SamplerFun} (hf : SamplerOK f) {g : SrcCSR}
    (hwf : SrcWF g) (slp : Bool) (k : Nat) :
    ∀ n step0 cur, (∀ v ∈ cur, v < g.numV) →
      ∀ L ∈ (sampleLoop f g slp k n step0 cur).1, ∀ v ∈ L, v < g.numV := by
  intro n
  induction n with
  | zero =>
    intro step0 cur hcur L hL
    simp only [sampleLoop, List.mem_singleton] at hL
    subst hL
    exact hcur
  | succ m ih =>
    intro step0 cur hcur L hL
    rw [sampleLoop] at hL
    simp only [] at hL
    rw [List.mem_cons] at hL
    rcases hL with rfl | hL
    · exact hcur
    · exact ih (step0 + cur.length) (processLayer f g slp k step0 cur).2
        (processLayer_next_valid hf hwf slp k step0 cur hcur) L hL

theorem headD_eq_head?_getD {α : Type} (l : List α) (d : α) :
    l.headD d = l.head?.getD d := by
  cases l <;> rfl

theorem getLastD_eq_getLast?_getD {α : Type} (l : List α) (d : α) :
    l.getLastD d = l.getLast?.getD d := by
  cases l with
  | nil => rfl
  | cons a t => rw [List.getLastD_eq_getLast?]

theorem outLayersOf_length (layers : List (List Nat)) :
    (outLayersOf layers).length = layers.length := by
  cases layers with
  | nil => rfl
  | cons l0 rest => simp [outLayersOf]

theorem outLayersOf_map_length_sum (layers : List (List Nat)) :
    ((outLayersOf layers).map List.length).sum =
      (layers.map List.length).sum := by
  cases layers with
  | nil => rfl
  | cons l0 rest =>
    rw [outLayersOf, List.map_append, List.sum_append, List.map_reverse,
      List.sum_reverse, List.map_map]
    have he : (List.length ∘ fun l : List Nat => l.insertionSort (· ≤ ·)) =
        List.length := by
      funext l
      exact List.length_insertionSort _ l
    rw [he, List.map_cons, List.sum_cons]
    simp [Nat.add_comm]

theorem deepSize_eq (layers : List (List Nat)) (h : layers ≠ []) :
    ((outLayersOf layers).headD []).length =
      (layers.map List.length).getLastD 0 := by
  cases layers with
  | nil => exact absurd rfl h
  | cons l0 rest =>
    cases rest with
    | nil => rfl
    | cons r rs =>
      rw [outLayersOf, headD_eq_head?_getD, List.head?_append_of_ne_nil _
        (by simp), List.head?_reverse, getLast?_map]
      rw [getLastD_eq_getLast?_getD, getLast?_map,
        List.getLast?_cons_cons]
      rw [List.getLast?_eq_getLast _ (by simp)]
      simp [List.length_insertionSort]

theorem sum_dropLast_add_getLast (l : List Nat) (h : l ≠ []) :
    l.dropLast.sum + l.getLastD 0 = l.sum := by
  conv_rhs => rw [← List.dropLast_append_getLast h]
  rw [List.sum_append, getLastD_eq_getLast?_getD,
    List.getLast?_eq_getLast _ h]
  simp

theorem take_one_sum (l : List Nat) : (l.take 1).sum = l.getD 0 0 := by
  cases l <;> simp

theorem getD_zero_map_length (L : List (List Nat)) :
    (L.map List.length).getD 0 0 = (L.headD []).length := by
  cases L <;> rfl

theorem indptr_getD_replicate (z : Nat) (counts : List Nat) (i : Nat)
    (h : i < z + 1) :
    (List.replicate (z + 1) 0 ++ (offsetsOf counts).drop 1).getD i 0 = 0 := by
  rw [List.getD_eq_getElem?_getD, List.getElem?_append_left (by simpa using h)]
  rw [List.getElem?_replicate]
  simp [h]

theorem flowOffsetsGo_getLast (indptr layerOff : List Nat) :
    ∀ n, (∀ i j, i ≤ j → j ≤ n + 1 →
        indptr.getD (layerOff.getD i 0) 0 ≤
          indptr.getD (layerOff.getD j 0) 0) →
      (flowOffsetsGo indptr layerOff n).getLast? =
        some (indptr.getD (layerOff.getD (n + 1) 0) 0 -
          indptr.getD (layerOff.getD 1 0) 0) := by
  intro n
  induction n with
  | zero =>
    intro _
    simp [flowOffsetsGo, Nat.sub_self]
  | succ m ih =>
    intro hmono
    have ihm := ih (fun i j hij hj => hmono i j hij (Nat.le_succ_of_le hj))
    rw [flowOffsetsGo]
    rw [List.getLast?_concat]
    have hld : (flowOffsetsGo indptr layerOff m).getLastD 0 =
        indptr.getD (layerOff.getD (m + 1) 0) 0 -
          indptr.getD (layerOff.getD 1 0) 0 := by
      rw [getLastD_eq_getLast?_getD, ihm]
      rfl
    rw [hld]
    have h1 : indptr.getD (layerOff.getD 1 0) 0 ≤
        indptr.getD (layerOff.getD (m + 1) 0) 0 :=
      hmono 1 (m + 1) (by omega) (by omega)
    have h2 : indptr.getD (layerOff.getD (m + 1) 0) 0 ≤
        indptr.getD (layerOff.getD (m + 2) 0) 0 :=
      hmono (m + 1) (m + 2) (by omega) (by omega)
    congr 1
    have hee : m + 1 + 1 = m + 2 := rfl
    rw [hee]
    omega

theorem mem_outLayersOf_flatten {layers : List (List Nat)} {v : Nat}
    (hv : v ∈ (outLayersOf layers).flatten) : ∃ L ∈ layers, v ∈ L := by
  rw [List.mem_flatten] at hv
  obtain ⟨out, hout, hvo⟩ := hv
  cases layers with
  | nil => simp [outLayersOf] at hout
  | cons l0 rest =>
    rw [outLayersOf, List.mem_append] at hout
    rcases hout with hA | hB
    · rw [List.mem_reverse, List.mem_map] at hA
      obtain ⟨L, hL, rfl⟩ := hA
      exact ⟨L, List.mem_cons_of_mem _ hL,
        (List.mem_insertionSort _).mp hvo⟩
    · rw [List.mem_singleton] at hB
      subst hB
      exact ⟨_, List.mem_cons_self _ _, hvo⟩

theorem constructNodeFlow_inv (numV : Nat) (layers : List (List Nat))
    (recs : List (List RecT)) (hne : layers ≠ [])
    (hlen : recs.map List.length = (layers.dropLast).map List.length)
    (hrl : ∀ R ∈ recs, ∀ r ∈ R, r.2.1.length = r.2.2.length)
    (hval : ∀ L ∈ layers, ∀ v ∈ L, v < numV) :
    NFInv numV (constructNodeFlow layers recs) := by
  have hlnn : layers.map List.length ≠ [] := by
    cases layers with
    | nil => exact absurd rfl hne
    | cons a t => simp
  have hlpos : 1 ≤ layers.length := by
    cases layers with
    | nil => exact absurd rfl hne
    | cons a t => simp
  have hcl : (orderedRecsOf recs).length =
      ((layers.map List.length).dropLast).sum := by
    rw [orderedRecsOf_length, hlen, List.map_dropLast]
  have hds : ((outLayersOf layers).headD []).length =
      (layers.map List.length).getLastD 0 := deepSize_eq layers hne
  have hN : ((outLayersOf layers).map List.length).sum =
      (layers.map List.length).sum := outLayersOf_map_length_sum layers
  have harith : ((outLayersOf layers).headD []).length +
      (orderedRecsOf recs).length =
      ((outLayersOf layers).map List.length).sum := by
    rw [hds, hcl, hN, ← sum_dropLast_add_getLast (layers.map List.length) hlnn]
    omega
  have hcounts : ((orderedRecsOf recs).map
      (fun p : Nat × RecT => p.2.2.1.length)).length = (orderedRecsOf recs).length := by
    rw [List.length_map]
  have hEM : (((orderedRecsOf recs).map
      (fun p : Nat × RecT => p.2.2.2.take p.2.2.1.length)).flatten).length =
      ((orderedRecsOf recs).map (fun p : Nat × RecT => p.2.2.1.length)).sum := by
    rw [List.length_flatten, List.map_map]
    congr 1
    apply List.map_congr_left
    intro p hp
    obtain ⟨R, hR, hpR⟩ := orderedRecsOf_mem hp
    have h := hrl R hR p.2 hpR
    simp [List.length_take, h]
  have h1 : (offsetsOf ((outLayersOf layers).map List.length)).getD 0 1 = 0 := by
    cases hc : (outLayersOf layers).map List.length <;> simp [offsetsOf]
  have h2 : (offsetsOf ((outLayersOf layers).map List.length)).getLast? =
      some ((outLayersOf layers).flatten).length := by
    rw [getLast?_offsetsOf, List.length_flatten]
  have h4 := sorted_indptr ((outLayersOf layers).headD []).length
    ((orderedRecsOf recs).map (fun p : Nat × RecT => p.2.2.1.length))
  have h5 : (List.replicate (((outLayersOf layers).headD []).length + 1) 0 ++
      (offsetsOf ((orderedRecsOf recs).map
        (fun p : Nat × RecT => p.2.2.1.length))).drop 1).getLast? =
      some (((orderedRecsOf recs).map
        (fun p : Nat × RecT => p.2.2.2.take p.2.2.1.length)).flatten).length := by
    rw [indptr_getLast, hEM]
  have hindlen : (List.replicate (((outLayersOf layers).headD []).length + 1)
      0 ++ (offsetsOf ((orderedRecsOf recs).map
        (fun p : Nat × RecT => p.2.2.1.length))).drop 1).length =
      ((outLayersOf layers).map List.length).sum + 1 := by
    rw [indptr_length, hcounts]
    omega
  have hlolen : (offsetsOf ((outLayersOf layers).map List.length)).length =
      layers.length + 1 := by
    rw [length_offsetsOf, List.length_map, outLayersOf_length]
  have hmono : ∀ i j, i ≤ j → j ≤ (layers.length - 1) + 1 →
      (List.replicate (((outLayersOf layers).headD []).length + 1) 0 ++
        (offsetsOf ((orderedRecsOf recs).map
          (fun p : Nat × RecT => p.2.2.1.length))).drop 1).getD
        ((offsetsOf ((outLayersOf layers).map List.length)).getD i 0) 0 ≤
      (List.replicate (((outLayersOf layers).headD []).length + 1) 0 ++
        (offsetsOf ((orderedRecsOf recs).map
          (fun p : Nat × RecT => p.2.2.1.length))).drop 1).getD
        ((offsetsOf ((outLayersOf layers).map List.length)).getD j 0) 0 := by
    intro i j hij hj
    have hjlt : j < (offsetsOf ((outLayersOf layers).map List.length)).length := by
      rw [hlolen]
      omega
    have hlo : (offsetsOf ((outLayersOf layers).map List.length)).getD i 0 ≤
        (offsetsOf ((outLayersOf layers).map List.length)).getD j 0 :=
      sorted_le_getD_mono (sorted_offsetsOf _) hij hjlt
    have hbound : (offsetsOf ((outLayersOf layers).map List.length)).getD j 0 <
        (List.replicate (((outLayersOf layers).headD []).length + 1) 0 ++
          (offsetsOf ((orderedRecsOf recs).map
            (fun p : Nat × RecT => p.2.2.1.length))).drop 1).length := by
      rw [hindlen]
      exact Nat.lt_succ_of_le (offsetsOf_getD_le_sum _ j)
    exact sorted_le_getD_mono h4 hlo hbound
  have hA1 : (List.replicate (((outLayersOf layers).headD []).length + 1) 0 ++
      (offsetsOf ((orderedRecsOf recs).map
        (fun p : Nat × RecT => p.2.2.1.length))).drop 1).getD
      ((offsetsOf ((outLayersOf layers).map List.length)).getD 1 0) 0 = 0 := by
    have hl1 : (offsetsOf ((outLayersOf layers).map List.length)).getD 1 0 =
        ((outLayersOf layers).headD []).length := by
      rw [offsetsOf_getD _ 1 (by rw [List.length_map, outLayersOf_length]; omega),
        take_one_sum, getD_zero_map_length]
    rw [hl1]
    exact indptr_getD_replicate _ _ _ (Nat.lt_succ_self _)
  have hAtop : (List.replicate (((outLayersOf layers).headD []).length + 1) 0 ++
      (offsetsOf ((orderedRecsOf recs).map
        (fun p : Nat × RecT => p.2.2.1.length))).drop 1).getD
      ((offsetsOf ((outLayersOf layers).map List.length)).getD
        ((layers.length - 1) + 1) 0) 0 =
      ((orderedRecsOf recs).map (fun p : Nat × RecT => p.2.2.1.length)).sum := by
    have hto : (layers.length - 1) + 1 = layers.length := by omega
    have hlt : (offsetsOf ((outLayersOf layers).map List.length)).getD
        layers.length 0 = ((outLayersOf layers).map List.length).sum := by
      have := offsetsOf_getD_length ((outLayersOf layers).map List.length)
      rwa [List.length_map, outLayersOf_length] at this
    rw [hto, hlt]
    have hidx : ((outLayersOf layers).map List.length).sum =
        (List.replicate (((outLayersOf layers).headD []).length + 1) 0 ++
          (offsetsOf ((orderedRecsOf recs).map
            (fun p : Nat × RecT => p.2.2.1.length))).drop 1).length - 1 := by
      rw [hindlen]
      omega
    rw [hidx]
    exact getD_of_getLast? (indptr_getLast _ _)
  have h3 : (flowOffsetsGo
      (List.replicate (((outLayersOf layers).headD []).length + 1) 0 ++
        (offsetsOf ((orderedRecsOf recs).map
          (fun p : Nat × RecT => p.2.2.1.length))).drop 1)
      (offsetsOf ((outLayersOf layers).map List.length))
      (layers.length - 1)).getLast? =
      some (((orderedRecsOf recs).map
        (fun p : Nat × RecT => p.2.2.2.take p.2.2.1.length)).flatten).length := by
    rw [flowOffsetsGo_getLast _ _ (layers.length - 1) hmono, hA1, hAtop, hEM,
      Nat.sub_zero]
  have h6 : ∀ v ∈ (outLayersOf layers).flatten, v < numV := by
    intro v hv
    obtain ⟨L, hL, hvL⟩ := mem_outLayersOf_flatten hv
    exact hval L hL v hvL
  exact ⟨h1, h2, h3, h4, h5, h6⟩

theorem neighborSampleNF_inv (f : SamplerFun) (g : SrcCSR) (slp : Bool)
    (k numHops : Nat) (seeds : List Nat) (hf : SamplerOK f) (hwf : SrcWF g)
    (hseeds : ∀ v ∈ seeds, v < g.numV) :
    NFInv g.numV (neighborSampleNF f g slp k numHops seeds) := by
  have h1 := sampleLoop_layers_ne_nil f g slp k (numHops - 1) 0
    (firstSeen seeds)
  have h2 := sampleLoop_lens f g slp k (numHops - 1) 0 (firstSeen seeds)
  have h3 := sampleLoop_rec_len hf hwf.2 slp k (numHops - 1) 0
    (firstSeen seeds)
  have h4 := sampleLoop_valid hf hwf slp k (numHops - 1) 0 (firstSeen seeds)
    (fun v hv => hseeds v (mem_firstSeen.mp hv))
  exact constructNodeFlow_inv g.numV _ _ h1 h2 h3 h4

theorem sum_map_sum_flatten {α : Type} (f : α → Nat) (L : List (List α)) :
    (L.map (fun grp => (grp.map f).sum)).sum = ((L.flatten).map f).sum := by
  induction L with
  | nil => rfl
  | cons grp t ih =>
    rw [List.map_cons, List.sum_cons, List.flatten_cons, List.map_append,
      List.sum_append, ih]

theorem mem_candidatesOf {g : SrcCSR} {block : List Nat} {v : Nat}
    (hv : v ∈ candidatesOf g block) : v ∈ g.indices := by
  rw [candidatesOf, List.mem_flatten] at hv
  obtain ⟨l, hl, hvl⟩ := hv
  rw [List.mem_map] at hl
  obtain ⟨d, hd, rfl⟩ := hl
  exact neighSlice_mem hvl

theorem constructLayersGo_valid {g : SrcCSR}
    {ord occOrd : Nat → List Nat → List Nat}
    {draw : Nat → Nat → Nat → List Nat}
    (hord : OrdOK ord) (hocc : OrdOK occOrd) (hdraw : DrawOK draw)
    (hop : ∀ v ∈ g.indices, v < g.numV) :
    ∀ szs step cur, ∀ b ∈ constructLayersGo g ord occOrd draw step cur szs,
      ∀ v ∈ b, v < g.numV := by
  intro szs
  induction szs with
  | nil =>
    intro step cur b hb
    simp [constructLayersGo] at hb
  | cons sz rest ih =>
    intro step cur b hb
    rw [constructLayersGo] at hb
    rw [List.mem_cons] at hb
    rcases hb with rfl | hb
    · intro v hv
      have hv1 : v ∈ firstSeen ((draw step
          (ord step (candidatesOf g cur)).length sz).map
          (fun i => (ord step (candidatesOf g cur)).getD i 0)) :=
        (hocc step _).mem_iff.mp hv
      have hv2 := mem_firstSeen.mp hv1
      rw [List.mem_map] at hv2
      obtain ⟨i, hi, rfl⟩ := hv2
      by_cases hn : (ord step (candidatesOf g cur)).length = 0
      · rw [(hdraw step _ sz).1 hn] at hi
        simp at hi
      · have hlt : i < (ord step (candidatesOf g cur)).length :=
          ((hdraw step _ sz).2 (Nat.pos_of_ne_zero hn)).2 i hi
        have hmem : (ord step (candidatesOf g cur)).getD i 0 ∈
            ord step (candidatesOf g cur) := by
          rw [List.getD_eq_getElem _ 0 hlt]
          exact List.getElem_mem hlt
        have hmem2 : (ord step (candidatesOf g cur)).getD i 0 ∈
            firstSeen (candidatesOf g cur) :=
          (hord step _).mem_iff.mp hmem
        exact hop _ (mem_candidatesOf (mem_firstSeen.mp hmem2))
    · exact ih (step + 1) _ b hb

theorem finalBlocks_mem {blocks : List (List Nat)} {b : List Nat}
    (hb : b ∈ finalBlocksOf blocks) : ∃ c ∈ blocks, b = c.reverse := by
  rw [finalBlocksOf, List.mem_reverse, List.mem_map] at hb
  obtain ⟨c, hc, rfl⟩ := hb
  exact ⟨c, hc, rfl⟩

theorem layerSampleNF_inv (g : SrcCSR)
    (ord occOrd : Nat → List Nat → List Nat)
    (draw : Nat → Nat → Nat → List Nat) (seeds layerSizes : List Nat)
    (hord : OrdOK ord) (hocc : OrdOK occOrd) (hdraw : DrawOK draw)
    (hop : ∀ v ∈ g.indices, v < g.numV)
    (hseeds : ∀ v ∈ seeds, v < g.numV) :
    NFInv g.numV (layerSampleNF g ord occOrd draw seeds layerSizes) := by
  have h1 : (offsetsOf ((finalBlocksOf (constructLayersBlocks g ord occOrd
      draw seeds layerSizes)).map List.length)).getD 0 1 = 0 := by
    cases hc : (finalBlocksOf (constructLayersBlocks g ord occOrd draw seeds
        layerSizes)).map List.length <;> simp [offsetsOf]
  have h2 : (offsetsOf ((finalBlocksOf (constructLayersBlocks g ord occOrd
      draw seeds layerSizes)).map List.length)).getLast? =
      some ((finalBlocksOf (constructLayersBlocks g ord occOrd draw seeds
        layerSizes)).flatten).length := by
    rw [getLast?_offsetsOf, List.length_flatten]
  have hEM : ∀ RA : List (List (Nat × Int)),
      ((RA.flatten).map (fun q : Nat × Int => q.2)).length =
        (RA.map List.length).sum := by
    intro RA
    rw [List.length_map, List.length_flatten]
  have h3 : (offsetsOf ((rowsPerFlow g (finalBlocksOf (constructLayersBlocks
      g ord occOrd draw seeds layerSizes))).map
      (fun grp => (grp.map List.length).sum))).getLast? =
      some ((((rowsPerFlow g (finalBlocksOf (constructLayersBlocks g ord
        occOrd draw seeds layerSizes))).flatten).flatten).map
        (fun q : Nat × Int => q.2)).length := by
    rw [getLast?_offsetsOf, hEM, sum_map_sum_flatten]
  have h4 := sorted_indptr (((finalBlocksOf (constructLayersBlocks g ord
      occOrd draw seeds layerSizes)).headD []).length)
    (((rowsPerFlow g (finalBlocksOf (constructLayersBlocks g ord occOrd draw
      seeds layerSizes))).flatten).map List.length)
  have h5 : (List.replicate (((finalBlocksOf (constructLayersBlocks g ord
      occOrd draw seeds layerSizes)).headD []).length + 1) 0 ++
      (offsetsOf (((rowsPerFlow g (finalBlocksOf (constructLayersBlocks g
        ord occOrd draw seeds layerSizes))).flatten).map
        List.length)).drop 1).getLast? =
      some ((((rowsPerFlow g (finalBlocksOf (constructLayersBlocks g ord
        occOrd draw seeds layerSizes))).flatten).flatten).map
        (fun q : Nat × Int => q.2)).length := by
    rw [indptr_getLast, hEM]
  have h6 : ∀ v ∈ (finalBlocksOf (constructLayersBlocks g ord occOrd draw
      seeds layerSizes)).flatten, v < g.numV := by
    intro v hv
    rw [List.mem_flatten] at hv
    obtain ⟨b, hb, hvb⟩ := hv
    obtain ⟨c, hc, rfl⟩ := finalBlocks_mem hb
    rw [List.mem_reverse] at hvb
    rw [constructLayersBlocks, List.mem_cons] at hc
    rcases hc with rfl | hc
    · exact hseeds v hvb
    · exact constructLayersGo_valid hord hocc hdraw hop layerSizes.reverse
        0 seeds c hc v hvb
  exact ⟨h1, h2, h3, h4, h5, h6⟩

theorem samplerOK_uniform_pickLast :
    SamplerOK (fun _ es vs k => getUniformSample pickLast es vs k) := by
  intro step es vs k hlen
  simp only [getUniformSample]
  split_ifs with hk
  · exact ⟨hlen, fun v hv => hv⟩
  · constructor
    · simp
    · intro v hv
      rw [List.mem_map] at hv
      obtain ⟨i, hi, rfl⟩ := hv
      have hk2 : k < vs.length := Nat.lt_of_not_le hk
      have hilt := (pickOK_pickLast vs.length k hk2).2.2 i hi
      rw [List.getD_eq_getElem _ 0 hilt]
      exact List.getElem_mem hilt

theorem ordOK_ordFS : OrdOK ordFS := by
  intro step l
  simp only [ordFS]
  exact List.Perm.refl _

theorem drawOK_drawZero : DrawOK drawZero := by
  intro step n k
  refine ⟨fun hn => by simp [drawZero, hn], fun hn => ?_⟩
  have hne : n ≠ 0 := Nat.pos_iff_ne_zero.mp hn
  refine ⟨by simp [drawZero, hne], fun i hi => ?_⟩
  simp only [drawZero, if_neg hne] at hi
  rw [List.eq_of_mem_replicate hi]
  exact hn

/-- C3: every NodeFlow produced by the neighbor sampler
(`SampleSubgraph` + `ConstructNodeFlow`) or by the layer-wise sampler
(`LayerUniformSample`) satisfies the claimed invariants:
`layer_offsets[0] = 0`, the last `layer_offsets` entry is
`|node_mapping|`, the last `flow_offsets` entry is `|edge_mapping|`, the
flow CSR `indptr` is monotonic non-decreasing with last entry
`|edge_mapping|`, and every `node_mapping` entry is a valid source-graph
vertex id — for every sampler oracle satisfying the postconditions the
code asserts, every well-formed source CSR and every in-range seed
list. -/
theorem c3_nodeflow_invariants :
    (∀ (f : SamplerFun) (g : SrcCSR) (slp : Bool) (k numHops : Nat)
      (seeds : List Nat), SamplerOK f → SrcWF g →
      (∀ v ∈ seeds, v < g.numV) →
      NFInv g.numV (neighborSampleNF f g slp k numHops seeds)) ∧
    (∀ (g : SrcCSR) (ord occOrd : Nat → List Nat → List Nat)
      (draw : Nat → Nat → Nat → List Nat) (seeds layerSizes : List Nat),
      OrdOK ord → OrdOK occOrd → DrawOK draw →
      (∀ v ∈ g.indices, v < g.numV) → (∀ v ∈ seeds, v < g.numV) →
      NFInv g.numV (layerSampleNF g ord occOrd draw seeds layerSizes)) :=
  ⟨fun f g slp k numHops seeds hf hwf hs =>
    neighborSampleNF_inv f g slp k numHops seeds hf hwf hs,
   fun g ord occOrd draw seeds layerSizes ho hc hd hop hs =>
    layerSampleNF_inv g ord occOrd draw seeds layerSizes ho hc hd hop hs⟩

theorem c3_nodeflow_invariants_witness :
    NFInv 5 (neighborSampleNF
      (fun _ es vs k => getUniformSample pickLast es vs k)
      { numV := 5, indptr := [0, 0, 1, 2, 3, 4], indices := [0, 1, 2, 3],
        eids := [0, 1, 2, 3] } false 10 3 [4]) ∧
    NFInv 4 (layerSampleNF
      { numV := 4, indptr := [0, 3, 6, 9, 12],
        indices := [1, 2, 3, 0, 2, 3, 0, 1, 3, 0, 1, 2],
        eids := [0, 1, 2, 3, 4, 5, 6, 7, 8, 9, 10, 11] }
      ordFS ordFS drawZero [0] [2, 2]) :=
  ⟨c3_nodeflow_invariants.1 _ _ false 10 3 [4] samplerOK_uniform_pickLast
      ⟨by decide, by decide⟩ (by decide),
   c3_nodeflow_invariants.2 _ ordFS ordFS drawZero [0] [2, 2] ordOK_ordFS
      ordOK_ordFS drawOK_drawZero (by decide) (by decide)⟩

end DglSpec
